import Mathlib

/-!
Verification of the LearnHub e-learning backend's progress/completion subsystem.

Shallow embedding of the Django models, signal handler and view functions in
`courses/models.py`, `courses/signals.py`, `courses/filters.py` and
`courses/views.py`.  Database tables are lists of rows; querysets are list
filters; timestamps are natural numbers supplied by the caller (standing for
`timezone.now()`); SQL float arithmetic is modelled exactly over `ℚ`.

The `Enrollment` and `Progress` model classes themselves are not present in
the repository sources (only their callers, the signal handler, the admin and
the tests are), so their methods (`mark_complete`, `progress_percentage`,
`is_completed`, `get_next_lesson`) are modelled from the specification; each
such definition is marked `Modelled from the spec:` in its doc comment.
Everything else is translated directly from the source files.
-/

namespace LearnHub

/-- Role of a user, from `User.ROLE_CHOICES` in `courses/models.py`. -/
inductive Role where
  | student
  | instructor
deriving DecidableEq, Repr

/-- Course status, from `Course.STATUS_CHOICES` in `courses/models.py`. -/
inductive CourseStatus where
  | draft
  | published
  | archived
deriving DecidableEq, Repr

/-- Row of the `Course` table (`courses/models.py`).  Slugs are modelled as
numeric identifiers; presentation-only columns (title, description,
thumbnail, level, price, timestamps) are omitted as no embedded operation
reads them. -/
structure Course where
  id : Nat
  slug : Nat
  instructorId : Nat
  status : CourseStatus
deriving DecidableEq, Repr

/-- Row of the `Module` table (`courses/models.py`): belongs to one course,
with a display `order` unique within the course. -/
structure Module where
  id : Nat
  courseId : Nat
  order : Nat
deriving DecidableEq, Repr

/-- Row of the `Lesson` table (`courses/models.py`): belongs to one module,
with an `order` unique within the module and a duration in minutes
(`PositiveIntegerField(default=0)`, so a plain natural number). -/
structure Lesson where
  id : Nat
  moduleId : Nat
  order : Nat
  duration_minutes : Nat
deriving DecidableEq, Repr

/-- Row of the `Enrollment` table.  Modelled from the spec (§3): links one
student to one course, with `enrolled_at` set once, nullable `completed_at`
and a soft-delete `is_active` flag.  The model class is absent from the
sources; its fields are taken from the spec and from the admin/tests that
read them. -/
structure Enrollment where
  id : Nat
  studentId : Nat
  courseId : Nat
  is_active : Bool
  enrolled_at : Nat
  completed_at : Option Nat
deriving DecidableEq, Repr

/-- Row of the `Progress` table.  Modelled from the spec (§3): one row per
(enrollment, lesson) pair with `completed` defaulting to false, a nullable
`completed_at` and a `last_accessed` timestamp. -/
structure Progress where
  enrollmentId : Nat
  lessonId : Nat
  completed : Bool
  completed_at : Option Nat
  last_accessed : Nat
deriving DecidableEq, Repr

/-- The relational state: one list of rows per table. -/
structure DB where
  courses : List Course
  modules : List Module
  lessons : List Lesson
  enrollments : List Enrollment
  progresses : List Progress
deriving DecidableEq, Repr

/-- Queryset `course.modules.all()` (reverse FK of `Module.course`). -/
def courseModules (db : DB) (cid : Nat) : List Module :=
  db.modules.filter (fun m => m.courseId = cid)

/-- Queryset `module.lessons.all()` (reverse FK of `Lesson.module`). -/
def moduleLessons (db : DB) (mid : Nat) : List Lesson :=
  db.lessons.filter (fun l => l.moduleId = mid)

/-- Property `Course.total_lessons` (`courses/models.py`):
`sum(module.lessons.count() for module in self.modules.all())`. -/
def total_lessons (db : DB) (cid : Nat) : Nat :=
  ((courseModules db cid).map (fun m => (moduleLessons db m.id).length)).sum

/-- Property `Course.total_duration` (`courses/models.py`):
`sum(lesson.duration_minutes for module in self.modules.all()
for lesson in module.lessons.all() if lesson.duration_minutes)` —
note the truthiness filter skipping zero durations. -/
def total_duration (db : DB) (cid : Nat) : Nat :=
  ((courseModules db cid).map (fun m =>
    (((moduleLessons db m.id).filter (fun l => l.duration_minutes ≠ 0)).map
      (fun l => l.duration_minutes)).sum)).sum

/-- Queryset `Lesson.objects.filter(module__course=course)` used by the
post-save signal in `courses/signals.py`: lessons whose module belongs to
the course. -/
def courseLessons (db : DB) (cid : Nat) : List Lesson :=
  db.lessons.filter (fun l =>
    db.modules.any (fun m => m.id = l.moduleId ∧ m.courseId = cid))

/-- Queryset `Progress.objects.filter(enrollment=enrollment)` /
`enrollment.progress_records.all()`. -/
def progressOf (db : DB) (eid : Nat) : List Progress :=
  db.progresses.filter (fun p => p.enrollmentId = eid)

/-- Signal handler `create_progress_records` (`courses/signals.py`): on
`post_save` of an `Enrollment`, when `created` is true, bulk-create one
`Progress` row per lesson of the course, with the model defaults
`completed=False`, `completed_at=None`.  When `created` is false it does
nothing. -/
def create_progress_records (db : DB) (inst : Enrollment) (created : Bool) : DB :=
  if created then
    { db with progresses := db.progresses ++
        (courseLessons db inst.courseId).map (fun l =>
          { enrollmentId := inst.id
            lessonId := l.id
            completed := false
            completed_at := none
            last_accessed := inst.enrolled_at }) }
  else db

/-- Errors surfaced by the view layer, matching the HTTP error responses of
`courses/views.py`. -/
inductive ApiError where
  | unauthenticated
  | permissionDenied
  | notFound
  | alreadyEnrolled
  | completedCourse
deriving DecidableEq, Repr

/-- View `enroll_in_course` (`courses/views.py`): checks authentication,
the student role, fetches the published course by slug
(`get_object_or_404(Course, slug=slug, status='published')`), rejects a
duplicate enrollment, then creates the `Enrollment` row — which fires the
`post_save` signal with `created=True`.  `newId` stands for the
auto-assigned primary key and `now` for the creation timestamp. -/
def enroll_in_course (db : DB) (authed : Bool) (userId : Nat) (role : Role)
    (slug : Nat) (newId : Nat) (now : Nat) : Except ApiError (DB × Nat) :=
  if ¬authed then .error .unauthenticated
  else if role ≠ .student then .error .permissionDenied
  else
    match db.courses.find? (fun c => c.slug = slug ∧ c.status = .published) with
    | none => .error .notFound
    | some course =>
      if db.enrollments.any (fun e => e.studentId = userId ∧ e.courseId = course.id) then
        .error .alreadyEnrolled
      else
        let en : Enrollment :=
          { id := newId, studentId := userId, courseId := course.id
            is_active := true, enrolled_at := now, completed_at := none }
        let db1 := { db with enrollments := db.enrollments ++ [en] }
        .ok (create_progress_records db1 en true, newId)

/-- Update of the single `Progress` row keyed by (enrollment, lesson):
`progress.save()` after mutating its fields.  The key columns are never
changed by the updates the views perform. -/
def updateProgressRow (db : DB) (eid lid : Nat) (f : Progress → Progress) : DB :=
  { db with progresses := db.progresses.map (fun p =>
      if p.enrollmentId = eid ∧ p.lessonId = lid then f p else p) }

/-- Update + save of an `Enrollment` row (`enrollment.save()` on an existing
row): the row with the same primary key is replaced, and the `post_save`
signal fires with `created=False` (so `create_progress_records` is a no-op). -/
def saveEnrollmentRow (db : DB) (en : Enrollment) : DB :=
  create_progress_records
    { db with enrollments := db.enrollments.map (fun e => if e.id = en.id then en else e) }
    en false

/-- Field update performed by `Progress.mark_complete` before its cascade:
`completed=True, completed_at=now()` on the (enrollment, lesson) row. -/
def completeUpd (db : DB) (eid lid now : Nat) : DB :=
  updateProgressRow db eid lid (fun p =>
    { p with completed := true, completed_at := some now })

/-- Modelled from the spec: `Progress.mark_complete` (the `Progress` model
class is missing from the sources).  Spec §4.2: sets `completed=true`,
`completed_at=now()`, then checks whether all progress rows under the
enrollment are now completed and, if so, sets `enrollment.completed_at=now()`
(saving the enrollment, which fires the signal with `created=False`). -/
def mark_complete (db : DB) (eid lid now : Nat) : DB :=
  if (progressOf (completeUpd db eid lid now) eid).all (fun p => p.completed) then
    match (completeUpd db eid lid now).enrollments.find? (fun e => e.id = eid) with
    | some en => saveEnrollmentRow (completeUpd db eid lid now) { en with completed_at := some now }
    | none => completeUpd db eid lid now
  else completeUpd db eid lid now

/-- View `complete_lesson` (`courses/views.py`): 404s unless the enrollment
is owned by the caller and a progress row exists for the lesson, then calls
`progress.mark_complete()`. -/
def complete_lesson (db : DB) (userId eid lid now : Nat) : Except ApiError DB :=
  match db.enrollments.find? (fun e => e.id = eid ∧ e.studentId = userId) with
  | none => .error .notFound
  | some _ =>
    match db.progresses.find? (fun p => p.enrollmentId = eid ∧ p.lessonId = lid) with
    | none => .error .notFound
    | some _ => .ok (mark_complete db eid lid now)

/-- Field update performed by `reset_lesson_progress` on the row:
`completed=False, completed_at=None` then `progress.save()`. -/
def resetUpd (db : DB) (eid lid : Nat) : DB :=
  updateProgressRow db eid lid (fun p =>
    { p with completed := false, completed_at := none })

/-- View `reset_lesson_progress` (`courses/views.py`): 404s like
`complete_lesson`, sets `completed=False, completed_at=None` on the row,
then — testing the enrollment object fetched before the update — clears
`enrollment.completed_at` if it was set. -/
def reset_lesson_progress (db : DB) (userId eid lid : Nat) : Except ApiError DB :=
  match db.enrollments.find? (fun e => e.id = eid ∧ e.studentId = userId) with
  | none => .error .notFound
  | some en =>
    match db.progresses.find? (fun p => p.enrollmentId = eid ∧ p.lessonId = lid) with
    | none => .error .notFound
    | some _ =>
      .ok (if en.completed_at.isSome then
            saveEnrollmentRow (resetUpd db eid lid) { en with completed_at := none }
          else resetUpd db eid lid)

/-- Modelled from the spec: property `Enrollment.is_completed` (§4.3),
defined as `completed_at is not null`. -/
def is_completed (en : Enrollment) : Bool :=
  en.completed_at.isSome

/-- View `unenroll_from_course` (`courses/views.py`): 404s unless an active
enrollment owned by the caller exists, refuses when `is_completed`, then
soft-deletes by saving `is_active=False` (an update save, so the signal
fires with `created=False`). -/
def unenroll_from_course (db : DB) (userId eid : Nat) : Except ApiError DB :=
  match db.enrollments.find? (fun e =>
      e.id = eid ∧ e.studentId = userId ∧ e.is_active = true) with
  | none => .error .notFound
  | some en =>
    if is_completed en then .error .completedCourse
    else .ok (saveEnrollmentRow db { en with is_active := false })

/-- Rounding to two decimal places over `ℚ`, modelling Python's
`round(x, 2)` (ties, which cannot arise in the claims below, are rounded
half-up). -/
def round2 (q : ℚ) : ℚ :=
  (round (q * 100) : ℤ) / 100

/-- Modelled from the spec: property `Enrollment.progress_percentage`
(§4.3, the scalar per-object path; the model class is missing from the
sources): `100 * count(progress where completed=true) / count(progress)`,
rounded to 2 decimal places, and exactly `0.0` when no progress rows
exist. -/
def progress_percentage (db : DB) (eid : Nat) : ℚ :=
  let rows := progressOf db eid
  if rows.length = 0 then 0
  else round2 (100 * ((rows.filter (fun p => p.completed)).length : ℚ) / (rows.length : ℚ))

/-- Annotation `total_progress=Count('progress_records', distinct=True)`
from `EnrollmentFilter._annotate_progress` (`courses/filters.py`) and
`EnrollmentListView.get_queryset` (`courses/views.py`). -/
def annotated_total_progress (db : DB) (eid : Nat) : Nat :=
  (progressOf db eid).length

/-- Annotation `completed_progress=Count('progress_records',
filter=Q(progress_records__completed=True), distinct=True)` from
`courses/filters.py` / `courses/views.py`. -/
def annotated_completed_progress (db : DB) (eid : Nat) : Nat :=
  ((progressOf db eid).filter (fun p => p.completed)).length

/-- Annotation `progress_percentage=Case(When(total_progress=0, then=0.0),
default=Cast(completed_progress)/Cast(total_progress)*100)` from
`EnrollmentFilter._annotate_progress` (`courses/filters.py`): the bulk
aggregated path, with no rounding. -/
def annotated_progress_percentage (db : DB) (eid : Nat) : ℚ :=
  if annotated_total_progress db eid = 0 then 0
  else (annotated_completed_progress db eid : ℚ) / (annotated_total_progress db eid : ℚ) * 100

/-- Lexicographic order on (module.order, lesson.order) keys. -/
def lexLe (a b : Nat × Nat) : Bool :=
  a.1 < b.1 ∨ (a.1 = b.1 ∧ a.2 ≤ b.2)

/-- Join of a progress row's lesson with its module, yielding the ordering
key `(module.order, lesson.order)` together with the lesson. -/
def lessonKey (db : DB) (lid : Nat) : Option (Nat × Nat × Lesson) :=
  match db.lessons.find? (fun l => l.id = lid) with
  | none => none
  | some l =>
    match db.modules.find? (fun m => m.id = l.moduleId) with
    | none => none
    | some m => some (m.order, l.order, l)

/-- One step of the running-minimum scan. -/
def argminStep (key : α → Nat × Nat) (acc : Option α) (x : α) : Option α :=
  match acc with
  | none => some x
  | some b => if lexLe (key x) (key b) then some x else some b

/-- Least element of a list under the `lexLe` order on keys. -/
def argminLex (key : α → Nat × Nat) (l : List α) : Option α :=
  l.foldl (argminStep key) none

/-- Modelled from the spec: `Enrollment.get_next_lesson` (§4.3, missing
from the sources): the first lesson, in ascending (module.order,
lesson.order) order, whose progress row is not completed; `null` when all
are completed. -/
def get_next_lesson (db : DB) (eid : Nat) : Option Lesson :=
  let cands := (progressOf db eid).filterMap (fun p =>
    if p.completed then none else lessonKey db p.lessonId)
  (argminLex (fun c => (c.1, c.2.1)) cands).map (fun c => c.2.2)

/-! ### Generic list-counting helpers -/

/-- Sum of a pointwise addition splits. -/
theorem sum_map_add {α : Type*} (l : List α) (f g : α → Nat) :
    (l.map (fun x => f x + g x)).sum = (l.map f).sum + (l.map g).sum := by
  induction l with
  | nil => simp
  | cons a t ih => simp [ih]; ring

/-- Counting with a predicate is summing its indicator. -/
theorem countP_eq_sum_map_ite {α : Type*} (p : α → Bool) (l : List α) :
    l.countP p = (l.map (fun x => if p x then 1 else 0)).sum := by
  induction l with
  | nil => simp
  | cons a t ih => by_cases h : p a <;> simp [List.countP_cons, h, ih, Nat.add_comm]

/-- Double counting: summing per-row match counts over one table equals
summing them over the other. -/
theorem sum_countP_swap {α β : Type*} (M : List α) (L : List β) (r : α → β → Bool) :
    (M.map (fun m => L.countP (r m))).sum
      = (L.map (fun l => M.countP (fun m => r m l))).sum := by
  induction M with
  | nil => simp
  | cons m M ih =>
    simp only [List.map_cons, List.sum_cons, ih]
    rw [countP_eq_sum_map_ite (r m) L, ← sum_map_add]
    congr 1
    refine List.map_congr_left (fun l _ => ?_)
    by_cases h : r m l <;> simp [List.countP_cons, h, Nat.add_comm]

/-- In a table whose key column is duplicate-free, two rows with the same
key are the same row. -/
theorem nodup_key_unique {α : Type*} {l : List α} {f : α → Nat}
    (h : (l.map f).Nodup) {a b : α} (ha : a ∈ l) (hb : b ∈ l)
    (hf : f a = f b) : a = b := by
  induction l with
  | nil => cases ha
  | cons x t ih =>
    simp only [List.map_cons, List.nodup_cons] at h
    rcases List.mem_cons.mp ha with rfl | ha' <;>
      rcases List.mem_cons.mp hb with rfl | hb'
    · rfl
    · exact absurd (hf ▸ List.mem_map_of_mem f hb') h.1
    · exact absurd (hf ▸ List.mem_map_of_mem f ha') h.1
    · exact ih h.2 ha' hb'

/-- In a table whose key column is duplicate-free, at most one row matches
a given key. -/
theorem countP_le_one_of_nodup_map {α : Type*} {l : List α} {f : α → Nat}
    (h : (l.map f).Nodup) (x : Nat) :
    l.countP (fun a => f a = x) ≤ 1 := by
  induction l with
  | nil => simp
  | cons a t ih =>
    simp only [List.map_cons, List.nodup_cons] at h
    rw [List.countP_cons]
    by_cases hfa : f a = x
    · have ht : t.countP (fun a => f a = x) = 0 := by
        rw [List.countP_eq_zero]
        intro b hb
        simp only [decide_eq_true_eq]
        intro hfb
        have hmem : f a ∈ List.map f t := by
          rw [hfa, ← hfb]; exact List.mem_map_of_mem f hb
        exact h.1 hmem
      simp [hfa, ht]
    · simpa [hfa] using ih h.2

/-- A map commutes past a filter whose predicate the map preserves. -/
theorem filter_map_comm {α : Type*} (l : List α) (g : α → α) (q : α → Bool)
    (h : ∀ a, q (g a) = q a) :
    (l.map g).filter q = (l.filter q).map g := by
  rw [List.filter_map]
  congr 1
  exact List.filter_congr (fun a _ => (h a))

/-- A map that fixes every element satisfying the filter is the identity on
the filtered list. -/
theorem map_filter_fix {α : Type*} (l : List α) (g : α → α) (q : α → Bool)
    (h : ∀ a, q a = true → g a = a) :
    (l.filter q).map g = l.filter q := by
  rw [List.map_congr_left (fun a ha => h a (List.of_mem_filter ha))]
  exact List.map_id _

/-- Two distinct elements force length at least two. -/
theorem two_le_length_of_mem_ne {α : Type*} [DecidableEq α] {l : List α}
    {a b : α} (ha : a ∈ l) (hb : b ∈ l) (hab : a ≠ b) : 2 ≤ l.length := by
  have hb' : b ∈ l.erase a := (List.mem_erase_of_ne (Ne.symm hab)).mpr hb
  have h1 : 1 ≤ (l.erase a).length := List.length_pos_of_mem hb'
  have h2 := List.length_erase_of_mem ha
  omega

/-! ### Structural lemmas about the embedded operations -/

/-- Saving an existing enrollment row never touches the progress table:
the `post_save` signal fires with `created=False`. -/
theorem saveEnrollmentRow_progresses (db : DB) (en : Enrollment) :
    (saveEnrollmentRow db en).progresses = db.progresses := by
  simp [saveEnrollmentRow, create_progress_records]

/-- Saving an existing enrollment row replaces exactly the row with its
primary key. -/
theorem saveEnrollmentRow_enrollments (db : DB) (en : Enrollment) :
    (saveEnrollmentRow db en).enrollments
      = db.enrollments.map (fun e => if e.id = en.id then en else e) := by
  simp [saveEnrollmentRow, create_progress_records]

/-- Saving an enrollment leaves every enrollment's progress queryset
unchanged. -/
theorem progressOf_saveEnrollmentRow (db : DB) (en : Enrollment) (x : Nat) :
    progressOf (saveEnrollmentRow db en) x = progressOf db x := by
  simp [progressOf, saveEnrollmentRow, create_progress_records]

/-- A row update keyed on (enrollment, lesson) maps each progress queryset
through the guarded update (provided the update keeps the key columns). -/
theorem progressOf_updateProgressRow (db : DB) (eid lid : Nat)
    (f : Progress → Progress) (hf : ∀ p, (f p).enrollmentId = p.enrollmentId)
    (x : Nat) :
    progressOf (updateProgressRow db eid lid f) x
      = (progressOf db x).map (fun p =>
          if p.enrollmentId = eid ∧ p.lessonId = lid then f p else p) := by
  unfold progressOf updateProgressRow
  exact filter_map_comm _ _ _ (fun a => by
    by_cases h : a.enrollmentId = eid ∧ a.lessonId = lid <;> simp [h, hf])

/-- A row update keyed on one enrollment leaves the progress querysets of
all other enrollments untouched. -/
theorem progressOf_updateProgressRow_ne (db : DB) (eid lid : Nat)
    (f : Progress → Progress) (hf : ∀ p, (f p).enrollmentId = p.enrollmentId)
    {x : Nat} (hx : x ≠ eid) :
    progressOf (updateProgressRow db eid lid f) x = progressOf db x := by
  rw [progressOf_updateProgressRow db eid lid f hf x]
  refine List.map_congr_left (fun p hp => ?_) |>.trans (List.map_id _)
  have hpx : p.enrollmentId = x := by
    simp only [progressOf, List.mem_filter, decide_eq_true_eq] at hp
    exact hp.2
  simp [hpx, hx]

/-- Progress-row updates do not touch the enrollment table. -/
theorem updateProgressRow_enrollments (db : DB) (eid lid : Nat)
    (f : Progress → Progress) :
    (updateProgressRow db eid lid f).enrollments = db.enrollments := rfl

/-! ### Concrete states used by the witnesses (the conftest.py scenario:
two modules ordered 1 and 2, lessons of 10/15 minutes in the first and
20 minutes in the second) -/

/-- Catalog of the `course` fixture in `courses/tests/conftest.py`. -/
def sampleDB : DB :=
  { courses := [{ id := 1, slug := 1, instructorId := 2, status := .published }]
    modules := [{ id := 1, courseId := 1, order := 1 },
                { id := 2, courseId := 1, order := 2 }]
    lessons := [{ id := 1, moduleId := 1, order := 1, duration_minutes := 10 },
                { id := 2, moduleId := 1, order := 2, duration_minutes := 15 },
                { id := 3, moduleId := 2, order := 1, duration_minutes := 20 }]
    enrollments := []
    progresses := [] }

/-- State after student 7 enrolls in the sample course. -/
def sampleEnrolled : DB :=
  { sampleDB with
      enrollments := [{ id := 1, studentId := 7, courseId := 1,
                        is_active := true, enrolled_at := 0, completed_at := none }]
      progresses :=
        [{ enrollmentId := 1, lessonId := 1, completed := false, completed_at := none, last_accessed := 0 },
         { enrollmentId := 1, lessonId := 2, completed := false, completed_at := none, last_accessed := 0 },
         { enrollmentId := 1, lessonId := 3, completed := false, completed_at := none, last_accessed := 0 }] }

/-- Enrolling in the sample course yields exactly `sampleEnrolled`. -/
theorem sample_enroll_eq :
    enroll_in_course sampleDB true 7 .student 1 1 0 = .ok (sampleEnrolled, 1) := by
  rfl

/-! ### C9 — course-level rollups -/

/-- Dropping the zero-duration filter does not change the duration sum. -/
theorem sum_map_filter_ne_zero {α : Type*} (l : List α) (f : α → Nat) :
    ((l.filter (fun x => f x ≠ 0)).map f).sum = (l.map f).sum := by
  induction l with
  | nil => rfl
  | cons a t ih =>
    rw [List.filter_cons]
    by_cases h : f a = 0 <;> simp [h] <;> simpa using ih

/-- C9: for every course, `Course.total_lessons` is the sum of the lesson
counts of its modules, and `Course.total_duration` is the sum of all lesson
durations across its modules — the source's truthiness filter only skips
zero durations, which contribute 0 anyway; on the fixture course
(modules ordered 1 and 2; lessons of 10 and 15 minutes in the first and 20
minutes in the second), `total_lessons = 3` and `total_duration = 45`. -/
theorem course_rollups :
    (∀ (db : DB) (cid : Nat),
      total_lessons db cid
        = ((courseModules db cid).map (fun m => (moduleLessons db m.id).length)).sum)
    ∧ (∀ (db : DB) (cid : Nat),
      total_duration db cid
        = ((courseModules db cid).map (fun m =>
            ((moduleLessons db m.id).map (fun l => l.duration_minutes)).sum)).sum)
    ∧ total_lessons sampleDB 1 = 3
    ∧ total_duration sampleDB 1 = 45 := by
  refine ⟨fun db cid => rfl, fun db cid => ?_, by decide, by decide⟩
  unfold total_duration
  exact congrArg List.sum (List.map_congr_left (fun m _ =>
    sum_map_filter_ne_zero (moduleLessons db m.id) (fun l => l.duration_minutes)))

/-! ### C7 — percentage bounds -/

/-- Rounding to two decimals preserves non-negativity. -/
theorem round2_nonneg {q : ℚ} (h : 0 ≤ q) : 0 ≤ round2 q := by
  unfold round2
  have h1 : (0 : ℤ) ≤ round (q * 100) := by
    rw [round_eq]
    have : (0 : ℤ) = ⌊(1 / 2 : ℚ)⌋ := by norm_num
    rw [this]
    exact Int.floor_mono (by linarith)
  positivity

/-- Rounding to two decimals preserves the upper bound 100. -/
theorem round2_le_100 {q : ℚ} (h : q ≤ 100) : round2 q ≤ 100 := by
  unfold round2
  have h1 : round (q * 100) ≤ (10000 : ℤ) := by
    rw [round_eq]
    have h2 : (⌊(10000 + 1 / 2 : ℚ)⌋ : ℤ) = 10000 := by norm_num
    rw [← h2]
    exact Int.floor_mono (by linarith)
  rw [div_le_iff (by norm_num : (0:ℚ) < 100)]
  calc ((round (q * 100) : ℤ) : ℚ) ≤ ((10000 : ℤ) : ℚ) := by exact_mod_cast h1
    _ = 100 * 100 := by norm_num

/-- C7: both the scalar and the bulk progress percentages always lie in
[0, 100], and both are exactly 0 when the enrollment has no progress
rows. -/
theorem progress_percentage_bounds (db : DB) (eid : Nat) :
    0 ≤ progress_percentage db eid ∧ progress_percentage db eid ≤ 100
    ∧ 0 ≤ annotated_progress_percentage db eid
    ∧ annotated_progress_percentage db eid ≤ 100
    ∧ (progressOf db eid = [] →
        progress_percentage db eid = 0 ∧ annotated_progress_percentage db eid = 0) := by
  have hct : ((progressOf db eid).filter (fun p => p.completed)).length
      ≤ (progressOf db eid).length := List.length_filter_le _ _
  by_cases ht : (progressOf db eid).length = 0
  · refine ⟨?_, ?_, ?_, ?_, fun _ => ⟨?_, ?_⟩⟩ <;>
      simp [progress_percentage, annotated_progress_percentage,
        annotated_total_progress, ht]
  · have ht' : (0 : ℚ) < ((progressOf db eid).length : ℚ) := by
      exact_mod_cast Nat.pos_of_ne_zero ht
    have hq0 : 0 ≤ 100 * (((progressOf db eid).filter (fun p => p.completed)).length : ℚ)
        / ((progressOf db eid).length : ℚ) := by positivity
    have hq100 : 100 * (((progressOf db eid).filter (fun p => p.completed)).length : ℚ)
        / ((progressOf db eid).length : ℚ) ≤ 100 := by
      rw [div_le_iff ht']
      have : (((progressOf db eid).filter (fun p => p.completed)).length : ℚ)
          ≤ ((progressOf db eid).length : ℚ) := by exact_mod_cast hct
      nlinarith
    refine ⟨?_, ?_, ?_, ?_, fun habs => absurd (congrArg List.length habs) (by simp [ht])⟩
    · simpa [progress_percentage, ht] using round2_nonneg hq0
    · simpa [progress_percentage, ht] using round2_le_100 hq100
    · unfold annotated_progress_percentage annotated_total_progress annotated_completed_progress
      rw [if_neg ht]
      positivity
    · unfold annotated_progress_percentage annotated_total_progress annotated_completed_progress
      rw [if_neg ht, div_mul_eq_mul_div, div_le_iff ht']
      have : (((progressOf db eid).filter (fun p => p.completed)).length : ℚ)
          ≤ ((progressOf db eid).length : ℚ) := by exact_mod_cast hct
      nlinarith

/-- Witness for C7 at a concrete no-rows state. -/
theorem progress_percentage_bounds_witness :
    progressOf sampleDB 1 = [] ∧ progress_percentage sampleDB 1 = 0
      ∧ annotated_progress_percentage sampleDB 1 = 0 :=
  ⟨by decide, ((progress_percentage_bounds sampleDB 1).2.2.2.2 (by decide)).1,
    ((progress_percentage_bounds sampleDB 1).2.2.2.2 (by decide)).2⟩

/-! ### C2 — scalar vs bulk percentage -/

/-- Sample-course enrollment with the first of its three lessons
completed. -/
def sampleOneDone : DB :=
  { sampleEnrolled with
      progresses :=
        [{ enrollmentId := 1, lessonId := 1, completed := true, completed_at := some 3, last_accessed := 0 },
         { enrollmentId := 1, lessonId := 2, completed := false, completed_at := none, last_accessed := 0 },
         { enrollmentId := 1, lessonId := 3, completed := false, completed_at := none, last_accessed := 0 }] }

/-- C2 counterexample: with one of three lessons completed, the scalar
(rounded) path returns 33.33 while the bulk annotated path returns the
unrounded 100/3, so the two values are not identical. -/
theorem scalar_bulk_percentage_differ :
    progress_percentage sampleOneDone 1 ≠ annotated_progress_percentage sampleOneDone 1 := by
  have hrows : progressOf sampleOneDone 1 = sampleOneDone.progresses := by decide
  have h1 : progress_percentage sampleOneDone 1 = 3333 / 100 := by
    unfold progress_percentage
    rw [hrows]
    norm_num [round2, round_eq, Int.floor_eq_iff, sampleOneDone, sampleEnrolled, sampleDB]
  have h2 : annotated_progress_percentage sampleOneDone 1 = 100 / 3 := by
    unfold annotated_progress_percentage annotated_total_progress annotated_completed_progress
    rw [hrows]
    norm_num [sampleOneDone, sampleEnrolled, sampleDB]
  rw [h1, h2]
  norm_num

/-- C2 amended: the scalar path equals the bulk annotated value rounded to
two decimal places (the bulk SQL expression itself does not round). -/
theorem scalar_refines_bulk (db : DB) (eid : Nat) :
    progress_percentage db eid = round2 (annotated_progress_percentage db eid) := by
  unfold progress_percentage annotated_progress_percentage
    annotated_total_progress annotated_completed_progress
  by_cases ht : (progressOf db eid).length = 0
  · simp [ht, round2]
  · rw [if_neg ht, if_neg ht]
    congr 1
    ring

/-! ### C8 — duplicate enrollment -/

/-- C8: when an enrollment for the (student, course) pair already exists,
a second `enroll_in_course` call by that student returns the
duplicate-enrollment error.  The duplicate check runs before
`Enrollment.objects.create`, so the operation produces only the error
value and no new enrollment or progress rows (the embedded operation is a
pure function; on the error branch no updated database is produced). -/
theorem duplicate_enroll_rejected (db : DB) (u slug newId now : Nat)
    (c : Course) (en : Enrollment)
    (hc : db.courses.find? (fun c' => c'.slug = slug ∧ c'.status = .published) = some c)
    (hen : en ∈ db.enrollments) (hs : en.studentId = u) (hcid : en.courseId = c.id) :
    enroll_in_course db true u .student slug newId now = .error .alreadyEnrolled := by
  have hany : db.enrollments.any (fun e => e.studentId = u ∧ e.courseId = c.id) = true :=
    List.any_eq_true.mpr ⟨en, hen, by simp [hs, hcid]⟩
  unfold enroll_in_course
  rw [if_neg (by simp), if_neg (by simp), hc]
  dsimp only
  rw [if_pos hany]

/-- Witness for C8: re-enrolling student 7 in the sample course fails with
the duplicate error. -/
theorem duplicate_enroll_rejected_witness :
    (sampleEnrolled.courses.find? (fun c' => c'.slug = 1 ∧ c'.status = .published)
        = some { id := 1, slug := 1, instructorId := 2, status := .published })
    ∧ ({ id := 1, studentId := 7, courseId := 1, is_active := true,
         enrolled_at := 0, completed_at := none } : Enrollment) ∈ sampleEnrolled.enrollments
    ∧ enroll_in_course sampleEnrolled true 7 .student 1 2 9 = .error .alreadyEnrolled := by
  refine ⟨by decide, by decide, ?_⟩
  exact duplicate_enroll_rejected sampleEnrolled 7 1 2 9
    { id := 1, slug := 1, instructorId := 2, status := .published }
    { id := 1, studentId := 7, courseId := 1, is_active := true,
      enrolled_at := 0, completed_at := none }
    (by decide) (by decide) rfl rfl

/-! ### C10 — provisioning fires only on creation -/

/-- C10: progress provisioning is guarded by the `created` flag of the
`post_save` signal: dispatching the signal for a plain save of an existing
enrollment is the identity on the database; consequently unenrolling
(which saves `is_active=False`) leaves the progress table exactly
unchanged, and resetting a lesson (which may save the enrollment to clear
`completed_at`) preserves the number of progress rows of every
(enrollment, lesson) pair. -/
theorem signal_only_on_create :
    (∀ (db : DB) (en : Enrollment), create_progress_records db en false = db)
    ∧ (∀ (db : DB) (u eid : Nat) (db' : DB),
        unenroll_from_course db u eid = .ok db' → db'.progresses = db.progresses)
    ∧ (∀ (db : DB) (u eid lid : Nat) (db' : DB),
        reset_lesson_progress db u eid lid = .ok db' →
          ∀ e l, db'.progresses.countP (fun p => p.enrollmentId = e ∧ p.lessonId = l)
            = db.progresses.countP (fun p => p.enrollmentId = e ∧ p.lessonId = l)) := by
  refine ⟨fun db en => rfl, ?_, ?_⟩
  · intro db u eid db' h
    unfold unenroll_from_course at h
    split at h
    · exact absurd h (by simp)
    · split at h
      · exact absurd h (by simp)
      · simp only [Except.ok.injEq] at h
        subst h
        exact saveEnrollmentRow_progresses _ _
  · intro db u eid lid db' h e l
    unfold reset_lesson_progress at h
    split at h
    · exact absurd h (by simp)
    · split at h
      · exact absurd h (by simp)
      · simp only [Except.ok.injEq] at h
        subst h
        have hsave : ∀ (d : DB) (en : Enrollment), (saveEnrollmentRow d en).progresses = d.progresses :=
          saveEnrollmentRow_progresses
        have hupd : (resetUpd db eid lid).progresses.countP
              (fun p => p.enrollmentId = e ∧ p.lessonId = l)
            = db.progresses.countP (fun p => p.enrollmentId = e ∧ p.lessonId = l) := by
          unfold resetUpd updateProgressRow
          rw [List.countP_map]
          refine List.countP_congr (fun p _ => ?_)
          by_cases hc : p.enrollmentId = eid ∧ p.lessonId = lid <;> simp [hc]
        split
        · rw [hsave, hupd]
        · exact hupd

/-- Witness for C10: a concrete unenrollment and a concrete reset, both
leaving the progress rows of the sample enrollment intact. -/
theorem signal_only_on_create_witness :
    (unenroll_from_course sampleEnrolled 7 1 = .ok
        (saveEnrollmentRow sampleEnrolled
          { id := 1, studentId := 7, courseId := 1, is_active := false,
            enrolled_at := 0, completed_at := none })
      → (saveEnrollmentRow sampleEnrolled
          { id := 1, studentId := 7, courseId := 1, is_active := false,
            enrolled_at := 0, completed_at := none }).progresses
          = sampleEnrolled.progresses)
    ∧ (saveEnrollmentRow sampleEnrolled
        { id := 1, studentId := 7, courseId := 1, is_active := false,
          enrolled_at := 0, completed_at := none }).progresses
        = sampleEnrolled.progresses :=
  ⟨fun h => signal_only_on_create.2.1 sampleEnrolled 7 1 _ h,
    signal_only_on_create.2.1 sampleEnrolled 7 1 _ (by rfl)⟩

/-! ### C1 — enrollment provisioning -/

/-- Boolean equality follows from the corresponding iff. -/
theorem bool_eq_of_iff {a b : Bool} (h : a = true ↔ b = true) : a = b := by
  cases a <;> cases b <;> simp_all

/-- A count known to be at most one is the indicator of a match. -/
theorem countP_eq_ite_any_of_le_one {α : Type*} {l : List α} {p : α → Bool}
    (h : l.countP p ≤ 1) : l.countP p = if l.any p then 1 else 0 := by
  by_cases ha : l.any p = true
  · rw [if_pos ha]
    have hpos : 0 < l.countP p := List.countP_pos_iff.mpr (List.any_eq_true.mp ha)
    omega
  · rw [if_neg ha, List.countP_eq_zero]
    intro a hmem hpa
    exact ha (List.any_eq_true.mpr ⟨a, hmem, hpa⟩)

/-- The join `Lesson.objects.filter(module__course=course)` enumerates, when
module primary keys are unique, exactly `Course.total_lessons` rows: the
signal's bulk insert has one row per lesson counted by the rollup. -/
theorem courseLessons_length (db : DB) (cid : Nat)
    (hM : (db.modules.map (fun m => m.id)).Nodup) :
    (courseLessons db cid).length = total_lessons db cid := by
  unfold courseLessons total_lessons courseModules moduleLessons
  rw [← List.countP_eq_length_filter]
  have hR : ((db.modules.filter (fun m => m.courseId = cid)).map
        (fun m => (db.lessons.filter (fun l => l.moduleId = m.id)).length)).sum
      = ((db.modules.filter (fun m => m.courseId = cid)).map
        (fun m => db.lessons.countP (fun l => l.moduleId = m.id))).sum := by
    exact congrArg List.sum (List.map_congr_left (fun m _ =>
      (List.countP_eq_length_filter _ _).symm))
  rw [hR, sum_countP_swap, countP_eq_sum_map_ite]
  refine congrArg List.sum (List.map_congr_left (fun l _ => ?_))
  have hle : (db.modules.filter (fun m => m.courseId = cid)).countP
      (fun m => l.moduleId = m.id) ≤ 1 := by
    rw [List.countP_filter]
    refine le_trans (List.countP_mono_left (fun m _ hm => ?_))
      (countP_le_one_of_nodup_map hM l.moduleId)
    simp only [Bool.and_eq_true, decide_eq_true_eq] at hm
    simp [hm.1.symm]
  rw [countP_eq_ite_any_of_le_one hle]
  have hcond : (db.modules.any (fun m => m.id = l.moduleId ∧ m.courseId = cid))
      = ((db.modules.filter (fun m => m.courseId = cid)).any
          (fun m => l.moduleId = m.id)) := by
    refine bool_eq_of_iff ?_
    simp only [List.any_eq_true, List.mem_filter, decide_eq_true_eq]
    constructor
    · rintro ⟨m, hm, h1, h2⟩
      exact ⟨m, ⟨hm, by simp [h2]⟩, h1.symm⟩
    · rintro ⟨m, ⟨hm, h2⟩, h1⟩
      exact ⟨m, hm, h1.symm, h2⟩
  rw [hcond]

/-- The signal's course-lessons join reads only the lesson and module
tables, so it is unaffected by the enrollment insert that triggered it. -/
theorem courseLessons_update_enrollments (db : DB) (E : List Enrollment) (cid : Nat) :
    courseLessons { db with enrollments := E } cid = courseLessons db cid := rfl

/-- Postcondition of a successful enrollment: the new enrollment's progress
queryset has exactly `total_lessons` rows, all incomplete, exactly one per
lesson reachable through the course's modules at enrollment time. -/
def ProvisioningSpec (db db' : DB) (cid eid : Nat) : Prop :=
  (progressOf db' eid).length = total_lessons db cid
  ∧ (∀ p ∈ progressOf db' eid, p.completed = false ∧ p.completed_at = none)
  ∧ ∀ l ∈ courseLessons db cid,
      ((progressOf db' eid).filter (fun p => p.lessonId = l.id)).length = 1

/-- C1: a successful `enroll_in_course` resolves a published course and, via
the `post_save` signal, bulk-creates exactly one incomplete progress row
per lesson of that course, so the row count equals `Course.total_lessons`
evaluated at enrollment time.  Hypotheses: module and lesson primary keys
are duplicate-free and the new enrollment id is fresh. -/
theorem enroll_provisions (db : DB) (authed : Bool) (u : Nat) (role : Role)
    (slug newId now : Nat) (db' : DB) (eid' : Nat)
    (hM : (db.modules.map (fun m => m.id)).Nodup)
    (hL : (db.lessons.map (fun l => l.id)).Nodup)
    (hfresh : ∀ p ∈ db.progresses, p.enrollmentId ≠ newId)
    (h : enroll_in_course db authed u role slug newId now = .ok (db', eid')) :
    ∃ c, db.courses.find? (fun c' => c'.slug = slug ∧ c'.status = .published) = some c
      ∧ eid' = newId ∧ ProvisioningSpec db db' c.id newId := by
  unfold enroll_in_course at h
  split at h
  · exact absurd h (by simp)
  · split at h
    · exact absurd h (by simp)
    · split at h
      · exact absurd h (by simp)
      · rename_i course hc
        split at h
        · exact absurd h (by simp)
        · simp only [Except.ok.injEq, Prod.mk.injEq] at h
          obtain ⟨hdb', heid⟩ := h
          refine ⟨course, hc, heid.symm, ?_⟩
          subst hdb'
          have hrows : progressOf (create_progress_records
              { db with enrollments := db.enrollments ++
                  [{ id := newId, studentId := u, courseId := course.id,
                     is_active := true, enrolled_at := now, completed_at := none }] }
              { id := newId, studentId := u, courseId := course.id,
                is_active := true, enrolled_at := now, completed_at := none } true) newId
              = (courseLessons db course.id).map (fun l =>
                  { enrollmentId := newId, lessonId := l.id, completed := false,
                    completed_at := none, last_accessed := now }) := by
            unfold create_progress_records progressOf
            rw [if_pos rfl]
            dsimp only
            rw [courseLessons_update_enrollments, List.filter_append]
            have h1 : db.progresses.filter (fun p => p.enrollmentId = newId) = [] := by
              rw [List.filter_eq_nil_iff]
              intro p hp
              simpa using hfresh p hp
            have h2 : ((courseLessons db course.id).map (fun l =>
                ({ enrollmentId := newId, lessonId := l.id, completed := false,
                   completed_at := none, last_accessed := now } : Progress))).filter
                  (fun p => p.enrollmentId = newId)
                = (courseLessons db course.id).map (fun l =>
                    { enrollmentId := newId, lessonId := l.id, completed := false,
                      completed_at := none, last_accessed := now }) := by
              rw [List.filter_eq_self]
              intro p hp
              obtain ⟨l, _, rfl⟩ := List.mem_map.mp hp
              simp
            rw [h1, h2]
            exact List.nil_append _
          refine ⟨?_, ?_, ?_⟩
          · rw [hrows, List.length_map]
            exact courseLessons_length db course.id hM
          · intro p hp
            rw [hrows] at hp
            obtain ⟨l, _, rfl⟩ := List.mem_map.mp hp
            exact ⟨rfl, rfl⟩
          · intro l hl
            rw [hrows, ← List.countP_eq_length_filter, List.countP_map]
            have hle : (courseLessons db course.id).countP
                (fun l' => l'.id = l.id) ≤ 1 := by
              unfold courseLessons
              rw [List.countP_filter]
              refine le_trans (List.countP_mono_left (fun x _ hx => ?_))
                (countP_le_one_of_nodup_map hL l.id)
              simp only [Bool.and_eq_true, decide_eq_true_eq] at hx
              simp [hx.1]
            have hge : 0 < (courseLessons db course.id).countP
                (fun l' => l'.id = l.id) :=
              List.countP_pos_iff.mpr ⟨l, hl, by simp⟩
            have hcomp : ((fun p : Progress => decide (p.lessonId = l.id)) ∘
                (fun l' : Lesson =>
                  ({ enrollmentId := newId, lessonId := l'.id, completed := false,
                     completed_at := none, last_accessed := now } : Progress)))
                = (fun l' : Lesson => decide (l'.id = l.id)) := rfl
            rw [hcomp]
            omega

/-- Witness for C1: enrolling in the sample course provisions its three
progress rows. -/
theorem enroll_provisions_witness :
    ((sampleDB.modules.map (fun m => m.id)).Nodup
      ∧ (sampleDB.lessons.map (fun l => l.id)).Nodup
      ∧ (∀ p ∈ sampleDB.progresses, p.enrollmentId ≠ 1))
    ∧ ∃ c, sampleDB.courses.find? (fun c' => c'.slug = 1 ∧ c'.status = .published) = some c
        ∧ (1 : Nat) = 1 ∧ ProvisioningSpec sampleDB sampleEnrolled c.id 1 := by
  refine ⟨⟨by decide, by decide, by decide⟩, ?_⟩
  exact enroll_provisions sampleDB true 7 .student 1 1 0 sampleEnrolled 1
    (by decide) (by decide) (by decide) sample_enroll_eq

/-! ### Lemmas about `mark_complete` -/

/-- The enrollment table is untouched by the row update. -/
theorem completeUpd_enrollments (db : DB) (e lid now : Nat) :
    (completeUpd db e lid now).enrollments = db.enrollments := rfl

/-- Progress querysets after the row update are the mapped querysets. -/
theorem progressOf_completeUpd (db : DB) (e lid now x : Nat) :
    progressOf (completeUpd db e lid now) x
      = (progressOf db x).map (fun p =>
          if p.enrollmentId = e ∧ p.lessonId = lid then
            { p with completed := true, completed_at := some now } else p) :=
  progressOf_updateProgressRow db e lid
    (fun p => { p with completed := true, completed_at := some now })
    (fun _ => rfl) x

/-- The progress table after `mark_complete` is the pointwise guarded
update of the (enrollment, lesson) row, whatever the completion cascade
did to the enrollment. -/
theorem mark_complete_progresses (db : DB) (e lid now : Nat) :
    (mark_complete db e lid now).progresses
      = db.progresses.map (fun p =>
          if p.enrollmentId = e ∧ p.lessonId = lid then
            { p with completed := true, completed_at := some now } else p) := by
  unfold mark_complete
  split
  · split
    · rw [saveEnrollmentRow_progresses]; rfl
    · rfl
  · rfl

/-- Progress querysets after `mark_complete` are the mapped querysets. -/
theorem progressOf_mark_complete (db : DB) (e lid now x : Nat) :
    progressOf (mark_complete db e lid now) x
      = (progressOf db x).map (fun p =>
          if p.enrollmentId = e ∧ p.lessonId = lid then
            { p with completed := true, completed_at := some now } else p) := by
  unfold progressOf
  rw [mark_complete_progresses]
  exact filter_map_comm _ _ _ (fun a => by
    by_cases h : a.enrollmentId = e ∧ a.lessonId = lid <;> simp [h])

/-- Re-running a keyed row update on a state that is already its image is
the identity (for an idempotent, key-preserving field update). -/
theorem updateProgressRow_map_eq_self (d db : DB) (e lid : Nat)
    (f : Progress → Progress)
    (hkey : ∀ p, (f p).enrollmentId = p.enrollmentId ∧ (f p).lessonId = p.lessonId)
    (hidem : ∀ p, f (f p) = f p)
    (hd : d.progresses = db.progresses.map (fun p =>
      if p.enrollmentId = e ∧ p.lessonId = lid then f p else p)) :
    updateProgressRow d e lid f = d := by
  unfold updateProgressRow
  have hmap : d.progresses.map (fun p =>
      if p.enrollmentId = e ∧ p.lessonId = lid then f p else p) = d.progresses := by
    rw [hd, List.map_map]
    refine List.map_congr_left (fun p _ => ?_)
    by_cases hc : p.enrollmentId = e ∧ p.lessonId = lid
    · have hc' : (f p).enrollmentId = e ∧ (f p).lessonId = lid := by
        rw [(hkey p).1, (hkey p).2]; exact hc
      simp [Function.comp, hc, hc', hidem]
    · simp [Function.comp, hc]
  rw [hmap]

/-- A search commutes past a map that preserves the search predicate. -/
theorem find?_map_pres {α : Type*} (l : List α) (f : α → α) (q : α → Bool)
    (hq : ∀ x, q (f x) = q x) : (l.map f).find? q = (l.find? q).map f := by
  induction l with
  | nil => rfl
  | cons a t ih =>
    by_cases h : q a
    · rw [List.map_cons, List.find?_cons_of_pos _ (by rw [hq]; exact h),
        List.find?_cons_of_pos _ h, Option.map_some']
    · rw [List.map_cons, List.find?_cons_of_neg _ (by rw [hq]; simpa using h),
        List.find?_cons_of_neg _ (by simpa using h), ih]

/-- The view's 404 guards reduce a successful `complete_lesson` call to
`mark_complete`. -/
theorem complete_lesson_eq (d : DB) (u eid lid now : Nat)
    (h1 : (d.enrollments.find? (fun e => e.id = eid ∧ e.studentId = u)).isSome = true)
    (h2 : (d.progresses.find? (fun p => p.enrollmentId = eid ∧ p.lessonId = lid)).isSome = true) :
    complete_lesson d u eid lid now = .ok (mark_complete d eid lid now) := by
  rcases ho1 : d.enrollments.find? (fun e => e.id = eid ∧ e.studentId = u) with _ | e0
  · rw [ho1] at h1; exact absurd h1 (by simp)
  · rcases ho2 : d.progresses.find? (fun p => p.enrollmentId = eid ∧ p.lessonId = lid) with _ | p0
    · rw [ho2] at h2; exact absurd h2 (by simp)
    · unfold complete_lesson
      rw [ho1, ho2]

/-- Saving the same enrollment row twice equals saving it once. -/
theorem saveEnrollmentRow_idem (d : DB) (en : Enrollment) :
    saveEnrollmentRow (saveEnrollmentRow d en) en = saveEnrollmentRow d en := by
  unfold saveEnrollmentRow create_progress_records
  simp only [Bool.false_eq_true, if_false]
  have hmm : (d.enrollments.map (fun e => if e.id = en.id then en else e)).map
      (fun e => if e.id = en.id then en else e)
      = d.enrollments.map (fun e => if e.id = en.id then en else e) := by
    rw [List.map_map]
    refine List.map_congr_left (fun x _ => ?_)
    by_cases hx : x.id = en.id <;> simp [Function.comp, hx]
  rw [hmm]

/-- Case analysis for `mark_complete`: either no cascade fired (not all
rows completed, or no enrollment row found) and only the progress row
changed, or the enrollment row was found with all rows completed and it was
saved with `completed_at = now`. -/
theorem mark_complete_cases (db : DB) (e lid now : Nat) :
    (mark_complete db e lid now = completeUpd db e lid now
      ∧ (((progressOf (completeUpd db e lid now) e).all (fun p => p.completed)) = false
         ∨ db.enrollments.find? (fun x => x.id = e) = none))
    ∨ ∃ en0, db.enrollments.find? (fun x => x.id = e) = some en0
        ∧ ((progressOf (completeUpd db e lid now) e).all (fun p => p.completed)) = true
        ∧ mark_complete db e lid now
          = saveEnrollmentRow (completeUpd db e lid now)
              { en0 with completed_at := some now } := by
  unfold mark_complete
  split
  · rename_i hcond
    split
    · rename_i en0 hfind
      exact Or.inr ⟨en0, hfind, hcond, rfl⟩
    · rename_i hfind
      exact Or.inl ⟨rfl, Or.inr hfind⟩
  · rename_i hcond
    exact Or.inl ⟨rfl, Or.inl (Bool.eq_false_iff.mpr hcond)⟩

/-- The row update is idempotent. -/
theorem completeUpd_idem (db : DB) (e lid now : Nat) :
    completeUpd (completeUpd db e lid now) e lid now = completeUpd db e lid now :=
  updateProgressRow_map_eq_self _ db e lid _
    (fun _ => ⟨rfl, rfl⟩) (fun _ => rfl) rfl

/-- The row update after a full `mark_complete` is a no-op. -/
theorem completeUpd_mark_complete (db : DB) (e lid now : Nat) :
    completeUpd (mark_complete db e lid now) e lid now = mark_complete db e lid now :=
  updateProgressRow_map_eq_self _ db e lid _
    (fun _ => ⟨rfl, rfl⟩) (fun _ => rfl) (mark_complete_progresses db e lid now)

/-- Marking the same lesson complete twice in a row is a no-op the second
time. -/
theorem mark_complete_idem (db : DB) (e lid now : Nat) :
    mark_complete (mark_complete db e lid now) e lid now
      = mark_complete db e lid now := by
  rcases mark_complete_cases db e lid now with ⟨hval, hsub⟩ | ⟨en0, hf0, hcond, hval⟩
  · rw [hval]
    unfold mark_complete
    rw [completeUpd_idem]
    rcases hsub with hcond | hfind
    · rw [if_neg (by rw [hcond]; simp)]
    · rw [completeUpd_enrollments, hfind]
      split <;> rfl
  · generalize hD : mark_complete db e lid now = D
    have hDval : D = saveEnrollmentRow (completeUpd db e lid now)
        { en0 with completed_at := some now } := by rw [← hD, hval]
    have hDprog : ∀ x, progressOf D x = progressOf (completeUpd db e lid now) x := by
      intro x
      rw [hDval, progressOf_saveEnrollmentRow]
    have hUD : completeUpd D e lid now = D := by
      rw [← hD]; exact completeUpd_mark_complete db e lid now
    unfold mark_complete
    rw [hUD]
    rw [if_pos (by rw [hDprog]; exact hcond)]
    have hfind2 : D.enrollments.find? (fun x => x.id = e)
        = some { en0 with completed_at := some now } := by
      rw [hDval, saveEnrollmentRow_enrollments, completeUpd_enrollments]
      rw [find?_map_pres _ _ _ (fun x => by
        by_cases hx : x.id = ({ en0 with completed_at := some now } : Enrollment).id
        · rw [if_pos hx, hx]
        · rw [if_neg hx])]
      rw [hf0, Option.map_some', if_pos rfl]
    rw [hfind2]
    show saveEnrollmentRow D { en0 with completed_at := some now } = D
    rw [hDval]
    exact saveEnrollmentRow_idem _ _

/-! ### C6 — idempotence of lesson completion -/

/-- The enrollment table is untouched by the reset row update. -/
theorem resetUpd_enrollments (db : DB) (eid lid : Nat) :
    (resetUpd db eid lid).enrollments = db.enrollments := rfl

/-- C6: with an existing enrollment owned by the caller and an existing
progress row, `complete_lesson` succeeds, leaves the row completed, and a
second identical call succeeds and returns the very same state (re-completing
an already-completed lesson is a no-op in effect, not an error). -/
theorem complete_lesson_idempotent (db : DB) (u eid lid now : Nat)
    (hE : (db.enrollments.map (fun x => x.id)).Nodup)
    (hen : ∃ en ∈ db.enrollments, en.id = eid ∧ en.studentId = u)
    (hrow : ∃ p ∈ db.progresses, p.enrollmentId = eid ∧ p.lessonId = lid) :
    ∃ db1, complete_lesson db u eid lid now = .ok db1
      ∧ (∀ p ∈ db1.progresses, p.enrollmentId = eid → p.lessonId = lid →
          p.completed = true)
      ∧ complete_lesson db1 u eid lid now = .ok db1 := by
  obtain ⟨en, henM, hen1, hen2⟩ := hen
  obtain ⟨p0, hp0M, hp01, hp02⟩ := hrow
  have h1 : (db.enrollments.find? (fun e => e.id = eid ∧ e.studentId = u)).isSome = true :=
    List.find?_isSome.mpr ⟨en, henM, by simp [hen1, hen2]⟩
  have h2 : (db.progresses.find? (fun p => p.enrollmentId = eid ∧ p.lessonId = lid)).isSome = true :=
    List.find?_isSome.mpr ⟨p0, hp0M, by simp [hp01, hp02]⟩
  refine ⟨mark_complete db eid lid now, complete_lesson_eq db u eid lid now h1 h2, ?_, ?_⟩
  · intro p hp hpe hpl
    rw [mark_complete_progresses] at hp
    obtain ⟨q, hqM, rfl⟩ := List.mem_map.mp hp
    by_cases hc : q.enrollmentId = eid ∧ q.lessonId = lid
    · simp [hc]
    · rw [if_neg hc] at hpe hpl ⊢
      exact absurd ⟨hpe, hpl⟩ hc
  · have h2' : ((mark_complete db eid lid now).progresses.find?
        (fun p => p.enrollmentId = eid ∧ p.lessonId = lid)).isSome = true := by
      refine List.find?_isSome.mpr ⟨?_, ?_, ?_⟩
      · exact if p0.enrollmentId = eid ∧ p0.lessonId = lid then
          { p0 with completed := true, completed_at := some now } else p0
      · rw [mark_complete_progresses]
        exact List.mem_map_of_mem _ hp0M
      · rw [if_pos ⟨hp01, hp02⟩]
        simp [hp01, hp02]
    have h1' : ((mark_complete db eid lid now).enrollments.find?
        (fun e => e.id = eid ∧ e.studentId = u)).isSome = true := by
      rcases mark_complete_cases db eid lid now with ⟨hval, _⟩ | ⟨en0, hf0, _, hval⟩
      · rw [hval, completeUpd_enrollments]
        exact h1
      · have hen0M : en0 ∈ db.enrollments := List.mem_of_find?_eq_some hf0
        have hen0id : en0.id = eid := by simpa using List.find?_some hf0
        have hen0eq : en0 = en := nodup_key_unique hE hen0M henM (by rw [hen0id, hen1])
        refine List.find?_isSome.mpr
          ⟨{ en0 with completed_at := some now }, ?_, ?_⟩
        · rw [hval, saveEnrollmentRow_enrollments, completeUpd_enrollments]
          exact List.mem_map.mpr ⟨en0, hen0M, by rw [if_pos rfl]⟩
        · simp [hen0id, hen0eq, hen1, hen2]
    rw [complete_lesson_eq _ u eid lid now h1' h2', mark_complete_idem]

/-- Witness for C6: completing lesson 1 of the sample enrollment twice. -/
theorem complete_lesson_idempotent_witness :
    ((sampleEnrolled.enrollments.map (fun x => x.id)).Nodup
      ∧ (∃ en ∈ sampleEnrolled.enrollments, en.id = 1 ∧ en.studentId = 7)
      ∧ (∃ p ∈ sampleEnrolled.progresses, p.enrollmentId = 1 ∧ p.lessonId = 1))
    ∧ ∃ db1, complete_lesson sampleEnrolled 7 1 1 5 = .ok db1
        ∧ (∀ p ∈ db1.progresses, p.enrollmentId = 1 → p.lessonId = 1 →
            p.completed = true)
        ∧ complete_lesson db1 7 1 1 5 = .ok db1 := by
  refine ⟨⟨by decide, by decide, by decide⟩, ?_⟩
  exact complete_lesson_idempotent sampleEnrolled 7 1 1 5 (by decide) (by decide) (by decide)

/-! ### C5 — complete-then-reset round trip -/

/-- C5: with an existing enrollment owned by the caller and an existing
progress row, `complete_lesson` followed by `reset_lesson_progress` on the
same (enrollment, lesson) pair succeeds and restores the row to
`completed = false, completed_at = null`; afterwards the enrollment is not
completed (`completed_at` is null), whether or not the completion had
marked the whole course complete. -/
theorem complete_then_reset (db : DB) (u eid lid now : Nat)
    (hE : (db.enrollments.map (fun x => x.id)).Nodup)
    (hen : ∃ en ∈ db.enrollments, en.id = eid ∧ en.studentId = u)
    (hrow : ∃ p ∈ db.progresses, p.enrollmentId = eid ∧ p.lessonId = lid) :
    ∃ db1 db2, complete_lesson db u eid lid now = .ok db1
      ∧ reset_lesson_progress db1 u eid lid = .ok db2
      ∧ (∀ p ∈ db2.progresses, p.enrollmentId = eid → p.lessonId = lid →
          p.completed = false ∧ p.completed_at = none)
      ∧ (∀ en ∈ db2.enrollments, en.id = eid → is_completed en = false) := by
  obtain ⟨en, henM, hen1, hen2⟩ := hen
  obtain ⟨p0, hp0M, hp01, hp02⟩ := hrow
  have h1 : (db.enrollments.find? (fun e => e.id = eid ∧ e.studentId = u)).isSome = true :=
    List.find?_isSome.mpr ⟨en, henM, by simp [hen1, hen2]⟩
  have h2 : (db.progresses.find? (fun p => p.enrollmentId = eid ∧ p.lessonId = lid)).isSome = true :=
    List.find?_isSome.mpr ⟨p0, hp0M, by simp [hp01, hp02]⟩
  refine ⟨mark_complete db eid lid now, ?_⟩
  generalize hD : mark_complete db eid lid now = db1
  have h2' : (db1.progresses.find?
      (fun p => p.enrollmentId = eid ∧ p.lessonId = lid)).isSome = true := by
    refine List.find?_isSome.mpr ⟨?_, ?_, ?_⟩
    · exact if p0.enrollmentId = eid ∧ p0.lessonId = lid then
        { p0 with completed := true, completed_at := some now } else p0
    · rw [← hD, mark_complete_progresses]
      exact List.mem_map_of_mem _ hp0M
    · rw [if_pos ⟨hp01, hp02⟩]
      simp [hp01, hp02]
  rcases hf1 : db1.enrollments.find? (fun e => e.id = eid ∧ e.studentId = u) with _ | en1
  · exfalso
    rcases mark_complete_cases db eid lid now with ⟨hval, _⟩ | ⟨en0, hf0, _, hval⟩
    · rw [← hD, hval, completeUpd_enrollments] at hf1
      rw [hf1] at h1
      exact absurd h1 (by simp)
    · have hen0M : en0 ∈ db.enrollments := List.mem_of_find?_eq_some hf0
      have hen0id : en0.id = eid := by simpa using List.find?_some hf0
      have hen0eq : en0 = en := nodup_key_unique hE hen0M henM (by rw [hen0id, hen1])
      have hmem : ({ en0 with completed_at := some now } : Enrollment) ∈ db1.enrollments := by
        rw [← hD, hval, saveEnrollmentRow_enrollments, completeUpd_enrollments]
        exact List.mem_map.mpr ⟨en0, hen0M, by rw [if_pos rfl]⟩
      have := List.find?_eq_none.mp hf1 _ hmem
      simp [hen0id, hen0eq, hen1, hen2] at this
  · rcases hf2 : db1.progresses.find?
        (fun p => p.enrollmentId = eid ∧ p.lessonId = lid) with _ | p1
    · rw [hf2] at h2'
      exact absurd h2' (by simp)
    · have hreset : reset_lesson_progress db1 u eid lid
          = .ok (if en1.completed_at.isSome then
              saveEnrollmentRow (resetUpd db1 eid lid) { en1 with completed_at := none }
            else resetUpd db1 eid lid) := by
        unfold reset_lesson_progress
        rw [hf1, hf2]
      have hen1id : en1.id = eid ∧ en1.studentId = u := by
        simpa using List.find?_some hf1
      refine ⟨_, hD ▸ complete_lesson_eq db u eid lid now h1 h2, hreset, ?_, ?_⟩
      · -- the reset row is incomplete with null timestamp
        intro p hp hpe hpl
        have hp' : p ∈ (resetUpd db1 eid lid).progresses := by
          rcases Decidable.em (en1.completed_at.isSome = true) with hca | hca
          · rw [if_pos hca, saveEnrollmentRow_progresses] at hp
            exact hp
          · rw [if_neg hca] at hp
            exact hp
        unfold resetUpd updateProgressRow at hp'
        obtain ⟨q, hqM, rfl⟩ := List.mem_map.mp hp'
        by_cases hc : q.enrollmentId = eid ∧ q.lessonId = lid
        · simp [hc]
        · rw [if_neg hc] at hpe hpl ⊢
          exact absurd ⟨hpe, hpl⟩ hc
      · -- the enrollment is no longer completed
        intro en' hen' hen'id
        rcases Decidable.em (en1.completed_at.isSome = true) with hca | hca
        · rw [if_pos hca, saveEnrollmentRow_enrollments, resetUpd_enrollments] at hen'
          obtain ⟨y, _, rfl⟩ := List.mem_map.mp hen'
          by_cases hy : y.id = ({ en1 with completed_at := none } : Enrollment).id
          · simp [hy, is_completed]
          · rw [if_neg hy] at hen'id ⊢
            exact absurd (by rw [hen'id, ← hen1id.1]) hy
        · have hcaN : en1.completed_at = none := Option.not_isSome_iff_eq_none.mp hca
          rw [if_neg hca, resetUpd_enrollments] at hen'
          rcases mark_complete_cases db eid lid now with ⟨hval, _⟩ | ⟨en0, hf0, _, hval⟩
          · -- no cascade fired: db1's enrollment rows are db's
            rw [← hD, hval, completeUpd_enrollments] at hen' hf1
            have hen1M : en1 ∈ db.enrollments := List.mem_of_find?_eq_some hf1
            have : en' = en1 := nodup_key_unique hE hen' hen1M (by rw [hen'id, hen1id.1])
            rw [this]
            simp [is_completed, hcaN]
          · -- cascade fired: the unique row with this id carries a timestamp,
            -- contradicting the branch where the found row has none
            exfalso
            have hen0M : en0 ∈ db.enrollments := List.mem_of_find?_eq_some hf0
            have hen0id : en0.id = eid := by simpa using List.find?_some hf0
            have hen1M : en1 ∈ db1.enrollments := List.mem_of_find?_eq_some hf1
            rw [← hD, hval, saveEnrollmentRow_enrollments, completeUpd_enrollments] at hen1M
            obtain ⟨z, hzM, hz⟩ := List.mem_map.mp hen1M
            by_cases hzc : z.id = ({ en0 with completed_at := some now } : Enrollment).id
            · rw [if_pos hzc] at hz
              rw [← hz] at hcaN
              simp at hcaN
            · rw [if_neg hzc] at hz
              have hzid : z.id = eid := by rw [hz, hen1id.1]
              have : z = en0 := nodup_key_unique hE hzM hen0M (by rw [hzid, hen0id])
              exact hzc (by rw [this])

/-- Witness for C5: complete then reset lesson 1 of the sample
enrollment. -/
theorem complete_then_reset_witness :
    ((sampleEnrolled.enrollments.map (fun x => x.id)).Nodup
      ∧ (∃ en ∈ sampleEnrolled.enrollments, en.id = 1 ∧ en.studentId = 7)
      ∧ (∃ p ∈ sampleEnrolled.progresses, p.enrollmentId = 1 ∧ p.lessonId = 1))
    ∧ ∃ db1 db2, complete_lesson sampleEnrolled 7 1 1 5 = .ok db1
        ∧ reset_lesson_progress db1 7 1 1 = .ok db2
        ∧ (∀ p ∈ db2.progresses, p.enrollmentId = 1 → p.lessonId = 1 →
            p.completed = false ∧ p.completed_at = none)
        ∧ (∀ en ∈ db2.enrollments, en.id = 1 → is_completed en = false) := by
  refine ⟨⟨by decide, by decide, by decide⟩, ?_⟩
  exact complete_then_reset sampleEnrolled 7 1 1 5 (by decide) (by decide) (by decide)

/-! ### C4 — next-lesson ordering -/

/-- Reflexivity of the lexicographic key order. -/
theorem lexLe_refl (a : Nat × Nat) : lexLe a a = true := by
  simp [lexLe]

/-- Transitivity of the lexicographic key order. -/
theorem lexLe_trans {a b c : Nat × Nat} (h1 : lexLe a b = true)
    (h2 : lexLe b c = true) : lexLe a c = true := by
  simp only [lexLe, decide_eq_true_eq] at h1 h2 ⊢
  omega

/-- Totality of the lexicographic key order. -/
theorem lexLe_total (a b : Nat × Nat) : lexLe a b = true ∨ lexLe b a = true := by
  simp only [lexLe, decide_eq_true_eq]
  omega

/-- Invariant of the running-minimum scan started from a seed. -/
theorem argminStep_go {α : Type*} (key : α → Nat × Nat) :
    ∀ (l : List α) (b m : α),
      l.foldl (argminStep key) (some b) = some m →
      (m = b ∨ m ∈ l) ∧ lexLe (key m) (key b) = true
        ∧ ∀ x ∈ l, lexLe (key m) (key x) = true := by
  intro l
  induction l with
  | nil =>
    intro b m h
    simp only [List.foldl_nil, Option.some.injEq] at h
    subst h
    exact ⟨Or.inl rfl, lexLe_refl _, by simp⟩
  | cons x t ih =>
    intro b m h
    rw [List.foldl_cons] at h
    by_cases hx : lexLe (key x) (key b) = true
    · rw [show argminStep key (some b) x = some x by
        simp [argminStep, hx]] at h
      obtain ⟨hm, hmb, hall⟩ := ih x m h
      refine ⟨?_, lexLe_trans hmb hx, ?_⟩
      · rcases hm with rfl | hm
        · exact Or.inr (List.mem_cons_self _ _)
        · exact Or.inr (List.mem_cons_of_mem _ hm)
      · intro y hy
        rcases List.mem_cons.mp hy with rfl | hy'
        · exact hmb
        · exact hall y hy'
    · rw [show argminStep key (some b) x = some b by
        simp [argminStep, hx]] at h
      obtain ⟨hm, hmb, hall⟩ := ih b m h
      refine ⟨?_, hmb, ?_⟩
      · rcases hm with rfl | hm
        · exact Or.inl rfl
        · exact Or.inr (List.mem_cons_of_mem _ hm)
      · intro y hy
        rcases List.mem_cons.mp hy with rfl | hy'
        · rcases lexLe_total (key y) (key b) with hyb | hby
          · exact absurd hyb hx
          · exact lexLe_trans hmb hby
        · exact hall y hy'

/-- The scan started from a seed never comes back empty. -/
theorem argminStep_go_isSome {α : Type*} (key : α → Nat × Nat) :
    ∀ (l : List α) (b : α), (l.foldl (argminStep key) (some b)).isSome = true := by
  intro l
  induction l with
  | nil => intro b; rfl
  | cons x t ih =>
    intro b
    rw [List.foldl_cons]
    by_cases hx : lexLe (key x) (key b) = true
    · rw [show argminStep key (some b) x = some x by
        simp [argminStep, hx]]
      exact ih x
    · rw [show argminStep key (some b) x = some b by
        simp [argminStep, hx]]
      exact ih b

/-- The minimum is empty exactly on the empty list. -/
theorem argminLex_eq_none {α : Type*} (key : α → Nat × Nat) (l : List α) :
    argminLex key l = none ↔ l = [] := by
  cases l with
  | nil => simp [argminLex]
  | cons a t =>
    simp only [argminLex, List.foldl_cons]
    rw [show argminStep key none a = some a from rfl]
    constructor
    · intro h
      have := argminStep_go_isSome key t a
      rw [h] at this
      exact absurd this (by simp)
    · intro h
      exact absurd h (by simp)

/-- The minimum is a member and is below every member. -/
theorem argminLex_spec {α : Type*} (key : α → Nat × Nat) (l : List α) (m : α)
    (h : argminLex key l = some m) :
    m ∈ l ∧ ∀ x ∈ l, lexLe (key m) (key x) = true := by
  cases l with
  | nil => exact absurd h (by simp [argminLex])
  | cons a t =>
    rw [argminLex, List.foldl_cons,
      show argminStep key none a = some a from rfl] at h
    obtain ⟨hm, hma, hall⟩ := argminStep_go key t a m h
    refine ⟨?_, ?_⟩
    · rcases hm with rfl | hm
      · exact List.mem_cons_self _ _
      · exact List.mem_cons_of_mem _ hm
    · intro y hy
      rcases List.mem_cons.mp hy with rfl | hy'
      · exact hma
      · exact hall y hy'

/-- Shape of a resolved ordering key: the second component is the lesson's
own order and the resolved lesson carries the looked-up id. -/
theorem lessonKey_shape (db : DB) (lid mo lo : Nat) (l : Lesson)
    (h : lessonKey db lid = some (mo, lo, l)) : lo = l.order ∧ l.id = lid := by
  unfold lessonKey at h
  rcases h1 : db.lessons.find? (fun x => x.id = lid) with _ | l0
  · rw [h1] at h
    exact absurd h (by simp)
  · rw [h1] at h
    dsimp only at h
    rcases h2 : db.modules.find? (fun m => m.id = l0.moduleId) with _ | m0
    · rw [h2] at h
      exact absurd h (by simp)
    · rw [h2] at h
      simp only [Option.some.injEq, Prod.mk.injEq] at h
      obtain ⟨-, hlo, hl⟩ := h
      subst hl
      exact ⟨hlo.symm, by simpa using List.find?_some h1⟩

/-- Specification of `get_next_lesson` for one enrollment: `none` exactly
when every progress row is completed, and any returned lesson belongs to an
incomplete row and is lexicographically least in (module.order,
lesson.order) among all incomplete rows. -/
def NextLessonSpec (db : DB) (eid : Nat) : Prop :=
  (get_next_lesson db eid = none ↔ ∀ p ∈ progressOf db eid, p.completed = true)
  ∧ ∀ l, get_next_lesson db eid = some l →
      ∃ p ∈ progressOf db eid, p.lessonId = l.id ∧ p.completed = false
        ∧ ∃ mo, lessonKey db p.lessonId = some (mo, l.order, l)
          ∧ ∀ p' ∈ progressOf db eid, p'.completed = false →
              ∀ mo' lo' l', lessonKey db p'.lessonId = some (mo', lo', l') →
                lexLe (mo, l.order) (mo', lo') = true

/-- C4: under referential integrity (every incomplete progress row's lesson
resolves to a lesson and its module), `get_next_lesson` returns `null` iff
all progress rows are completed, and otherwise returns the first incomplete
lesson in ascending (module.order, lesson.order) order. -/
theorem get_next_lesson_spec (db : DB) (eid : Nat)
    (hres : ∀ p ∈ progressOf db eid, p.completed = false →
      (lessonKey db p.lessonId).isSome = true) :
    NextLessonSpec db eid := by
  constructor
  · unfold get_next_lesson
    rw [Option.map_eq_none', argminLex_eq_none, List.filterMap_eq_nil_iff]
    constructor
    · intro h p hp
      by_cases hc : p.completed = true
      · exact hc
      · have hks := hres p hp (by simpa using hc)
        have := h p hp
        rw [if_neg (by simpa using hc)] at this
        rw [this] at hks
        exact absurd hks (by simp)
    · intro h p hp
      rw [if_pos (h p hp)]
  · intro l hl
    unfold get_next_lesson at hl
    obtain ⟨c, hc, hcl⟩ := Option.map_eq_some'.mp hl
    obtain ⟨hcm, hmin⟩ := argminLex_spec _ _ _ hc
    obtain ⟨p, hpM, hpc⟩ := List.mem_filterMap.mp hcm
    by_cases hpcomp : p.completed = true
    · rw [if_pos hpcomp] at hpc
      exact absurd hpc (by simp)
    · rw [if_neg hpcomp] at hpc
      obtain ⟨mo, lo, l0⟩ := c
      simp only at hcl
      subst hcl
      obtain ⟨hlo, hlid⟩ := lessonKey_shape db p.lessonId mo lo l0 hpc
      subst hlo
      refine ⟨p, hpM, hlid.symm, by simpa using hpcomp, mo, hpc, ?_⟩
      intro p' hp'M hp'c mo' lo' l' hk'
      have hcand : (mo', lo', l') ∈ (progressOf db eid).filterMap (fun q =>
          if q.completed then none else lessonKey db q.lessonId) :=
        List.mem_filterMap.mpr ⟨p', hp'M, by rw [if_neg (by simp [hp'c]), hk']⟩
      simpa using hmin _ hcand

/-- Witness for C4: the freshly enrolled sample course offers lesson 1 of
module 1 as the next lesson. -/
theorem get_next_lesson_spec_witness :
    (∀ p ∈ progressOf sampleEnrolled 1, p.completed = false →
      (lessonKey sampleEnrolled p.lessonId).isSome = true)
    ∧ NextLessonSpec sampleEnrolled 1 :=
  ⟨by decide, get_next_lesson_spec sampleEnrolled 1 (by decide)⟩

/-! ### C3 — completion flag vs percentage, under operation sequences -/

/-- A student request against one enrollment: complete a lesson (with its
timestamp) or reset it. -/
inductive LessonOp where
  | complete (lid now : Nat)
  | reset (lid : Nat)
deriving DecidableEq, Repr

/-- Run one request through the corresponding view; an error response (404)
leaves the database unchanged. -/
def applyOp (u eid : Nat) (db : DB) : LessonOp → DB
  | .complete lid now =>
    match complete_lesson db u eid lid now with
    | .ok db' => db'
    | .error _ => db
  | .reset lid =>
    match reset_lesson_progress db u eid lid with
    | .ok db' => db'
    | .error _ => db

/-- Run a sequence of requests. -/
def applyOps (u eid : Nat) (db : DB) (ops : List LessonOp) : DB :=
  ops.foldl (applyOp u eid) db

/-- The denormalization invariant: every enrollment's cached
`completed_at` flag is set exactly when the enrollment has at least one
progress row and all of them are completed. -/
def SyncInv (db : DB) : Prop :=
  ∀ en ∈ db.enrollments,
    is_completed en
      = (!(progressOf db en.id).isEmpty
          && (progressOf db en.id).all (fun p => p.completed))

/-- Inversion of a successful `complete_lesson` call. -/
theorem complete_lesson_ok (d : DB) (u eid lid now : Nat) (db' : DB)
    (h : complete_lesson d u eid lid now = .ok db') :
    db' = mark_complete d eid lid now
    ∧ ∃ p ∈ d.progresses, p.enrollmentId = eid ∧ p.lessonId = lid := by
  unfold complete_lesson at h
  split at h
  · exact absurd h (by simp)
  · split at h
    · exact absurd h (by simp)
    · rename_i p0 hp0
      simp only [Except.ok.injEq] at h
      exact ⟨h.symm, p0, List.mem_of_find?_eq_some hp0,
        by simpa using List.find?_some hp0⟩

/-- Inversion of a successful `reset_lesson_progress` call. -/
theorem reset_lesson_ok (d : DB) (u eid lid : Nat) (db' : DB)
    (h : reset_lesson_progress d u eid lid = .ok db') :
    ∃ en1, d.enrollments.find? (fun e => e.id = eid ∧ e.studentId = u) = some en1
      ∧ (∃ p ∈ d.progresses, p.enrollmentId = eid ∧ p.lessonId = lid)
      ∧ db' = (if en1.completed_at.isSome then
          saveEnrollmentRow (resetUpd d eid lid) { en1 with completed_at := none }
        else resetUpd d eid lid) := by
  unfold reset_lesson_progress at h
  split at h
  · exact absurd h (by simp)
  · rename_i en1 hen1
    split at h
    · exact absurd h (by simp)
    · rename_i p0 hp0
      simp only [Except.ok.injEq] at h
      exact ⟨en1, hen1, ⟨p0, List.mem_of_find?_eq_some hp0,
        by simpa using List.find?_some hp0⟩, h.symm⟩

/-- A queryset of another enrollment is untouched by `mark_complete`. -/
theorem progressOf_mark_complete_ne (db : DB) (e lid now : Nat) {x : Nat}
    (hx : x ≠ e) :
    progressOf (mark_complete db e lid now) x = progressOf db x := by
  rw [progressOf_mark_complete]
  refine (List.map_congr_left fun p hp => ?_).trans (List.map_id _)
  have hpx : p.enrollmentId = x := by
    simp only [progressOf, List.mem_filter, decide_eq_true_eq] at hp
    exact hp.2
  simp [hpx, hx]

/-- Completing a row preserves a fully-completed queryset. -/
theorem all_completed_map_complete (rows : List Progress) (e lid now : Nat)
    (h : rows.all (fun p => p.completed) = true) :
    (rows.map (fun p => if p.enrollmentId = e ∧ p.lessonId = lid then
      { p with completed := true, completed_at := some now } else p)).all
        (fun p => p.completed) = true := by
  rw [List.all_eq_true] at h ⊢
  intro p hp
  obtain ⟨q, hq, rfl⟩ := List.mem_map.mp hp
  by_cases hc : q.enrollmentId = e ∧ q.lessonId = lid
  · simp [hc]
  · simpa [hc] using h q hq

/-- `mark_complete` preserves the denormalization invariant whenever the
updated row exists (which the view's 404 guard guarantees). -/
theorem syncInv_mark_complete (db : DB) (eid lid now : Nat) (hInv : SyncInv db)
    (hrow : ∃ p ∈ db.progresses, p.enrollmentId = eid ∧ p.lessonId = lid) :
    SyncInv (mark_complete db eid lid now) := by
  obtain ⟨p0, hp0M, hp01, hp02⟩ := hrow
  have hp0R : p0 ∈ progressOf db eid := by
    simp [progressOf, List.mem_filter, hp0M, hp01]
  have hnonempty : progressOf (mark_complete db eid lid now) eid ≠ [] := by
    rw [progressOf_mark_complete]
    intro habs
    rw [List.map_eq_nil] at habs
    rw [habs] at hp0R
    exact absurd hp0R (List.not_mem_nil _)
  have hallpres : ∀ x, (progressOf db x).all (fun p => p.completed) = true →
      (progressOf (mark_complete db eid lid now) x).all (fun p => p.completed) = true := by
    intro x hx
    rw [progressOf_mark_complete]
    exact all_completed_map_complete _ _ _ _ hx
  rcases mark_complete_cases db eid lid now with ⟨hval, hsub⟩ | ⟨en0, hf0, hcond, hval⟩
  · intro en' hen'
    rw [hval, completeUpd_enrollments] at hen'
    by_cases hid : en'.id = eid
    · rcases hsub with hcond | hfind
      · have hcond' : (progressOf (mark_complete db eid lid now) eid).all
            (fun p => p.completed) = false := by
          have : progressOf (mark_complete db eid lid now) eid
              = progressOf (completeUpd db eid lid now) eid := by
            rw [progressOf_mark_complete, progressOf_completeUpd]
          rw [this, hcond]
        have hic : is_completed en' = false := by
          rcases hic : is_completed en' with _ | _
          · rfl
          · exfalso
            have hold := hInv en' hen'
            rw [hic] at hold
            have hall_old : (progressOf db en'.id).all (fun p => p.completed) = true := by
              have hh := hold.symm
              rw [Bool.and_eq_true] at hh
              exact hh.2
            have := hallpres en'.id hall_old
            rw [hid] at this
            rw [this] at hcond'
            exact absurd hcond' (by simp)
        rw [hic, hid]
        have : progressOf (mark_complete db eid lid now) eid
            = progressOf (completeUpd db eid lid now) eid := by
          rw [progressOf_mark_complete, progressOf_completeUpd]
        rw [this, hcond]
        simp
      · exfalso
        have := List.find?_eq_none.mp hfind en' hen'
        simp [hid] at this
    · rw [progressOf_mark_complete_ne db eid lid now hid]
      exact hInv en' hen'
  · intro en' hen'
    rw [hval, saveEnrollmentRow_enrollments, completeUpd_enrollments] at hen'
    obtain ⟨x, hxM, rfl⟩ := List.mem_map.mp hen'
    have hen0id : en0.id = eid := by simpa using List.find?_some hf0
    by_cases hx : x.id = ({ en0 with completed_at := some now } : Enrollment).id
    · rw [if_pos hx]
      have hall : (progressOf (mark_complete db eid lid now) eid).all
          (fun p => p.completed) = true := by
        have : progressOf (mark_complete db eid lid now) eid
            = progressOf (completeUpd db eid lid now) eid := by
          rw [progressOf_mark_complete, progressOf_completeUpd]
        rw [this]
        exact hcond
      have hid' : ({ en0 with completed_at := some now } : Enrollment).id = eid := hen0id
      rw [hid']
      rw [hall]
      have : (progressOf (mark_complete db eid lid now) eid).isEmpty = false := by
        rcases hh : progressOf (mark_complete db eid lid now) eid with _ | ⟨a, t⟩
        · exact absurd hh hnonempty
        · rfl
      rw [this]
      rfl
    · rw [if_neg hx]
      have hxid : x.id ≠ eid := by
        intro habs
        exact hx (by rw [habs, hen0id])
      rw [progressOf_mark_complete_ne db eid lid now hxid]
      exact hInv x hxM

/-- `reset_lesson_progress` preserves the denormalization invariant. -/
theorem syncInv_reset (db : DB) (u eid lid : Nat) (db' : DB) (hInv : SyncInv db)
    (h : reset_lesson_progress db u eid lid = .ok db') : SyncInv db' := by
  obtain ⟨en1, hf1, ⟨p0, hp0M, hp01, hp02⟩, hval⟩ := reset_lesson_ok db u eid lid db' h
  have hen1id : en1.id = eid ∧ en1.studentId = u := by
    simpa using List.find?_some hf1
  have hen1M : en1 ∈ db.enrollments := List.mem_of_find?_eq_some hf1
  have hprog : ∀ x, progressOf db' x
      = (progressOf db x).map (fun p =>
          if p.enrollmentId = eid ∧ p.lessonId = lid then
            { p with completed := false, completed_at := none } else p) := by
    intro x
    have hbase : progressOf (resetUpd db eid lid) x
        = (progressOf db x).map (fun p =>
            if p.enrollmentId = eid ∧ p.lessonId = lid then
              { p with completed := false, completed_at := none } else p) :=
      progressOf_updateProgressRow db eid lid
        (fun p => { p with completed := false, completed_at := none })
        (fun _ => rfl) x
    rw [hval]
    rcases Decidable.em (en1.completed_at.isSome = true) with hca | hca
    · rw [if_pos hca, progressOf_saveEnrollmentRow]
      exact hbase
    · rw [if_neg hca]
      exact hbase
  have hprog_ne : ∀ x, x ≠ eid → progressOf db' x = progressOf db x := by
    intro x hx
    rw [hprog]
    refine (List.map_congr_left fun p hp => ?_).trans (List.map_id _)
    have hpx : p.enrollmentId = x := by
      simp only [progressOf, List.mem_filter, decide_eq_true_eq] at hp
      exact hp.2
    simp [hpx, hx]
  have hall_false : (progressOf db' eid).all (fun p => p.completed) = false := by
    have hp0R : p0 ∈ progressOf db eid := by
      simp [progressOf, List.mem_filter, hp0M, hp01]
    have hmem : ({ p0 with completed := false, completed_at := none } : Progress)
        ∈ progressOf db' eid := by
      rw [hprog]
      exact List.mem_map.mpr ⟨p0, hp0R, by rw [if_pos ⟨hp01, hp02⟩]⟩
    rcases hha : (progressOf db' eid).all (fun p => p.completed) with _ | _
    · rfl
    · exfalso
      have := List.all_eq_true.mp hha _ hmem
      simp at this
  intro en' hen'
  rcases Decidable.em (en1.completed_at.isSome = true) with hca | hca
  · rw [hval, if_pos hca, saveEnrollmentRow_enrollments, resetUpd_enrollments] at hen'
    obtain ⟨x, hxM, rfl⟩ := List.mem_map.mp hen'
    by_cases hx : x.id = ({ en1 with completed_at := none } : Enrollment).id
    · rw [if_pos hx]
      have hid' : ({ en1 with completed_at := none } : Enrollment).id = eid := hen1id.1
      rw [hid', hall_false]
      simp [is_completed]
    · rw [if_neg hx]
      have hxid : x.id ≠ eid := by
        intro habs
        exact hx (by rw [habs]; exact hen1id.1.symm)
      rw [hprog_ne x.id hxid]
      exact hInv x hxM
  · have hcaN : en1.completed_at = none := Option.not_isSome_iff_eq_none.mp hca
    rw [hval, if_neg hca, resetUpd_enrollments] at hen'
    by_cases hid : en'.id = eid
    · rw [hid, hall_false]
      have hic1 : is_completed en1 = false := by simp [is_completed, hcaN]
      have hold1 := hInv en1 hen1M
      rw [hic1, hen1id.1] at hold1
      have holden := hInv en' hen'
      rw [hid, ← hold1] at holden
      rw [holden]
      simp
    · rw [hprog_ne en'.id hid]
      exact hInv en' hen'

/-- Every single student request preserves the denormalization invariant. -/
theorem syncInv_applyOp (u eid : Nat) (db : DB) (op : LessonOp)
    (hInv : SyncInv db) : SyncInv (applyOp u eid db op) := by
  cases op with
  | complete lid now =>
    show SyncInv (match complete_lesson db u eid lid now with
      | .ok db' => db' | .error _ => db)
    rcases hc : complete_lesson db u eid lid now with e | db'
    · exact hInv
    · obtain ⟨rfl, hrow⟩ := complete_lesson_ok db u eid lid now db' hc
      exact syncInv_mark_complete db eid lid now hInv hrow
  | reset lid =>
    show SyncInv (match reset_lesson_progress db u eid lid with
      | .ok db' => db' | .error _ => db)
    rcases hc : reset_lesson_progress db u eid lid with e | db'
    · exact hInv
    · exact syncInv_reset db u eid lid db' hInv hc

/-- Any sequence of student requests preserves the invariant. -/
theorem syncInv_applyOps (u eid : Nat) (ops : List LessonOp) :
    ∀ (db : DB), SyncInv db → SyncInv (applyOps u eid db ops) := by
  induction ops with
  | nil => intro db h; exact h
  | cons op t ih =>
    intro db h
    exact ih _ (syncInv_applyOp u eid db op h)

/-- Adding a fresh enrollment together with its all-incomplete progress
rows preserves the invariant. -/
theorem syncInv_extend (db : DB) (en : Enrollment) (rows : List Progress)
    (hInv : SyncInv db)
    (hen_ca : en.completed_at = none)
    (hrows_id : ∀ r ∈ rows, r.enrollmentId = en.id)
    (hrows_c : ∀ r ∈ rows, r.completed = false)
    (hfreshP : ∀ p ∈ db.progresses, p.enrollmentId ≠ en.id)
    (hfreshE : ∀ x ∈ db.enrollments, x.id ≠ en.id) :
    SyncInv { db with enrollments := db.enrollments ++ [en],
                      progresses := db.progresses ++ rows } := by
  have hsplit : ∀ x,
      progressOf
          ({ db with
              enrollments := db.enrollments ++ [en],
              progresses := db.progresses ++ rows } : DB) x
        = progressOf db x ++ rows.filter (fun p => p.enrollmentId = x) := by
    intro x
    unfold progressOf
    exact List.filter_append _ _
  intro en' hen'
  rcases List.mem_append.mp hen' with hold | hnew
  · have hxid : en'.id ≠ en.id := hfreshE en' hold
    have hflt : rows.filter (fun p => p.enrollmentId = en'.id) = [] := by
      rw [List.filter_eq_nil_iff]
      intro r hr
      simp only [decide_eq_true_eq]
      rw [hrows_id r hr]
      exact fun habs => hxid habs.symm
    rw [hsplit, hflt, List.append_nil]
    exact hInv en' hold
  · have heq : en' = en := by simpa using hnew
    subst heq
    have hold0 : progressOf db en'.id = [] := by
      unfold progressOf
      rw [List.filter_eq_nil_iff]
      intro p hp
      simpa using hfreshP p hp
    have hflt : rows.filter (fun p => p.enrollmentId = en'.id) = rows :=
      List.filter_eq_self.mpr (fun r hr => by simp [hrows_id r hr])
    rw [hsplit, hold0, List.nil_append, hflt,
      show is_completed en' = false by simp [is_completed, hen_ca]]
    cases hrows : rows with
    | nil => simp
    | cons r t =>
      have hrc : r.completed = false := hrows_c r (hrows ▸ List.mem_cons_self r t)
      simp [hrc]

/-- A successful enrollment preserves the invariant: the new enrollment
starts uncompleted with all-incomplete rows. -/
theorem syncInv_enroll (db : DB) (authed : Bool) (u : Nat) (role : Role)
    (slug newId now : Nat) (db' : DB) (eid' : Nat) (hInv : SyncInv db)
    (hfreshP : ∀ p ∈ db.progresses, p.enrollmentId ≠ newId)
    (hfreshE : ∀ en ∈ db.enrollments, en.id ≠ newId)
    (h : enroll_in_course db authed u role slug newId now = .ok (db', eid')) :
    SyncInv db' := by
  unfold enroll_in_course at h
  split at h
  · exact absurd h (by simp)
  · split at h
    · exact absurd h (by simp)
    · split at h
      · exact absurd h (by simp)
      · rename_i course hc
        split at h
        · exact absurd h (by simp)
        · simp only [Except.ok.injEq, Prod.mk.injEq] at h
          obtain ⟨hdb', -⟩ := h
          subst hdb'
          exact syncInv_extend db
            { id := newId, studentId := u, courseId := course.id,
              is_active := true, enrolled_at := now, completed_at := none }
            _ hInv rfl
            (fun r hr => by
              obtain ⟨l, -, rfl⟩ := List.mem_map.mp hr
              rfl)
            (fun r hr => by
              obtain ⟨l, -, rfl⟩ := List.mem_map.mp hr
              rfl)
            hfreshP hfreshE

/-- Bridge: the invariant's right-hand side says exactly that the bulk
(unrounded) percentage is 100 over a non-empty set of progress rows. -/
theorem syncRHS_iff_percentage (db : DB) (x : Nat) :
    (!(progressOf db x).isEmpty && (progressOf db x).all (fun p => p.completed)) = true
      ↔ (progressOf db x ≠ [] ∧ annotated_progress_percentage db x = 100) := by
  constructor
  · intro h
    rw [Bool.and_eq_true] at h
    obtain ⟨h1, h2⟩ := h
    have hne : progressOf db x ≠ [] := by
      intro habs
      rw [habs] at h1
      simp at h1
    refine ⟨hne, ?_⟩
    have hceq : ((progressOf db x).filter (fun p => p.completed)).length
        = (progressOf db x).length := by
      rw [← List.countP_eq_length_filter]
      exact List.countP_eq_length.mpr (List.all_eq_true.mp h2)
    have ht0 : (progressOf db x).length ≠ 0 := by
      intro habs
      exact hne (List.length_eq_zero.mp habs)
    unfold annotated_progress_percentage annotated_total_progress
      annotated_completed_progress
    rw [if_neg ht0, hceq]
    have htQ : ((progressOf db x).length : ℚ) ≠ 0 := Nat.cast_ne_zero.mpr ht0
    field_simp
  · rintro ⟨hne, hp⟩
    have ht0 : (progressOf db x).length ≠ 0 := by
      intro habs
      exact hne (List.length_eq_zero.mp habs)
    unfold annotated_progress_percentage annotated_total_progress
      annotated_completed_progress at hp
    rw [if_neg ht0] at hp
    have htQ : ((progressOf db x).length : ℚ) ≠ 0 := Nat.cast_ne_zero.mpr ht0
    have hceq : ((progressOf db x).filter (fun p => p.completed)).length
        = (progressOf db x).length := by
      have hQ : (((progressOf db x).filter (fun p => p.completed)).length : ℚ)
          = ((progressOf db x).length : ℚ) := by
        field_simp at hp
        linarith
      exact_mod_cast hQ
    rw [Bool.and_eq_true]
    constructor
    · rcases hh : progressOf db x with _ | ⟨a, t⟩
      · exact absurd hh hne
      · rfl
    · rw [List.all_eq_true]
      rw [← List.countP_eq_length_filter] at hceq
      exact List.countP_eq_length.mp hceq

/-- C3 (amended): starting from a fresh enrollment, after any sequence of
`complete_lesson` / `reset_lesson_progress` requests, every enrollment's
`is_completed` flag is true exactly when it has at least one progress row
and its exact (unrounded, bulk) progress percentage equals 100 — the
cascades in `mark_complete` and the reset view keep the denormalized
`completed_at` in sync with the progress rows. -/
theorem completion_flag_sync (db : DB) (authed : Bool) (u : Nat) (role : Role)
    (slug newId now : Nat) (db' : DB) (eid' : Nat)
    (hInv : SyncInv db)
    (hfreshP : ∀ p ∈ db.progresses, p.enrollmentId ≠ newId)
    (hfreshE : ∀ en ∈ db.enrollments, en.id ≠ newId)
    (h : enroll_in_course db authed u role slug newId now = .ok (db', eid'))
    (ops : List LessonOp) (u' e' : Nat) :
    ∀ en ∈ (applyOps u' e' db' ops).enrollments,
      is_completed en = true ↔
        (progressOf (applyOps u' e' db' ops) en.id ≠ []
          ∧ annotated_progress_percentage (applyOps u' e' db' ops) en.id = 100) := by
  have h1 := syncInv_enroll db authed u role slug newId now db' eid'
    hInv hfreshP hfreshE h
  have h2 := syncInv_applyOps u' e' ops db' h1
  intro en hen
  rw [h2 en hen]
  exact syncRHS_iff_percentage _ _

/-- Witness for the amended C3: enroll in the sample course, complete two
lessons then reset one; the flag and the percentage stay in sync. -/
theorem completion_flag_sync_witness :
    (SyncInv sampleDB
      ∧ (∀ p ∈ sampleDB.progresses, p.enrollmentId ≠ 1)
      ∧ (∀ en ∈ sampleDB.enrollments, en.id ≠ 1))
    ∧ (∀ en ∈ (applyOps 7 1 sampleEnrolled
          [.complete 1 3, .complete 2 4, .reset 1]).enrollments,
        is_completed en = true ↔
          (progressOf (applyOps 7 1 sampleEnrolled
              [.complete 1 3, .complete 2 4, .reset 1]) en.id ≠ []
            ∧ annotated_progress_percentage (applyOps 7 1 sampleEnrolled
                [.complete 1 3, .complete 2 4, .reset 1]) en.id = 100)) := by
  refine ⟨⟨by unfold SyncInv; decide, by decide, by decide⟩, ?_⟩
  exact completion_flag_sync sampleDB true 7 .student 1 1 0 sampleEnrolled 1
    (by unfold SyncInv; decide) (by decide) (by decide) sample_enroll_eq
    [.complete 1 3, .complete 2 4, .reset 1] 7 1

/-- Batch characterization: completing a list of lessons (none of which is
the witness lesson `w`, whose row stays incomplete throughout, so the
completion cascade never fires) marks exactly those rows completed. -/
theorem applyOps_complete_batch (u e now w : Nat) :
    ∀ (ls : List Nat) (db : DB),
      (∃ p ∈ db.progresses, p.enrollmentId = e ∧ p.lessonId = w ∧ p.completed = false) →
      w ∉ ls →
      (∃ en ∈ db.enrollments, en.id = e ∧ en.studentId = u) →
      (∀ l ∈ ls, ∃ p ∈ db.progresses, p.enrollmentId = e ∧ p.lessonId = l) →
      applyOps u e db (ls.map (fun l => LessonOp.complete l now))
        = { db with progresses := db.progresses.map (fun p =>
            if p.enrollmentId = e ∧ p.lessonId ∈ ls then
              { p with completed := true, completed_at := some now } else p) } := by
  intro ls
  induction ls with
  | nil =>
    intro db hw hwl hen hrow
    have hmap : db.progresses.map (fun p =>
        if p.enrollmentId = e ∧ p.lessonId ∈ ([] : List Nat) then
          { p with completed := true, completed_at := some now } else p)
        = db.progresses := by
      refine (List.map_congr_left fun p hp => ?_).trans (List.map_id _)
      simp
    rw [hmap, show List.map (fun l => LessonOp.complete l now) ([] : List Nat)
      = ([] : List LessonOp) from rfl]
    rfl
  | cons l t ih =>
    intro db hw hwl hen hrow
    obtain ⟨pw, hpwM, hpw1, hpw2, hpw3⟩ := hw
    obtain ⟨en, henM, hen1, hen2⟩ := hen
    have hwl' : w ≠ l := fun habs => hwl (habs ▸ List.mem_cons_self l t)
    have hwlt : w ∉ t := fun h => hwl (List.mem_cons_of_mem _ h)
    have h1 : (db.enrollments.find? (fun x => x.id = e ∧ x.studentId = u)).isSome = true :=
      List.find?_isSome.mpr ⟨en, henM, by simp [hen1, hen2]⟩
    have h2 : (db.progresses.find? (fun p =>
        p.enrollmentId = e ∧ p.lessonId = l)).isSome = true := by
      obtain ⟨pl, hplM, hpl1, hpl2⟩ := hrow l (List.mem_cons_self l t)
      exact List.find?_isSome.mpr ⟨pl, hplM, by simp [hpl1, hpl2]⟩
    have hstep : applyOp u e db (.complete l now) = mark_complete db e l now := by
      show (match complete_lesson db u e l now with
        | .ok d => d | .error _ => db) = _
      rw [complete_lesson_eq db u e l now h1 h2]
    have hmc : mark_complete db e l now = completeUpd db e l now := by
      rcases mark_complete_cases db e l now with ⟨hval, -⟩ | ⟨en0, -, hcond, -⟩
      · exact hval
      · exfalso
        have hmem : pw ∈ progressOf db e := by
          simp [progressOf, List.mem_filter, hpwM, hpw1]
        have hmem' : pw ∈ progressOf (completeUpd db e l now) e := by
          rw [progressOf_completeUpd]
          exact List.mem_map.mpr ⟨pw, hmem, by
            rw [if_neg (by
              simp only [hpw2, decide_eq_true_eq, not_and]
              exact fun _ => hwl')]⟩
        have hco := List.all_eq_true.mp hcond pw hmem'
        rw [hpw3] at hco
        exact absurd hco (by simp)
    have hops : (l :: t).map (fun l' => LessonOp.complete l' now)
        = LessonOp.complete l now :: t.map (fun l' => LessonOp.complete l' now) := rfl
    rw [hops, show applyOps u e db
        (LessonOp.complete l now :: t.map (fun l' => LessonOp.complete l' now))
        = applyOps u e (applyOp u e db (.complete l now))
            (t.map (fun l' => LessonOp.complete l' now)) from rfl,
      hstep, hmc]
    have hw' : ∃ p ∈ (completeUpd db e l now).progresses,
        p.enrollmentId = e ∧ p.lessonId = w ∧ p.completed = false := by
      refine ⟨pw, List.mem_map.mpr ⟨pw, hpwM, ?_⟩, hpw1, hpw2, hpw3⟩
      rw [if_neg (by
        simp only [hpw2, decide_eq_true_eq, not_and]
        exact fun _ => hwl')]
    have hen' : ∃ x ∈ (completeUpd db e l now).enrollments,
        x.id = e ∧ x.studentId = u := ⟨en, henM, hen1, hen2⟩
    have hrow' : ∀ l' ∈ t, ∃ p ∈ (completeUpd db e l now).progresses,
        p.enrollmentId = e ∧ p.lessonId = l' := by
      intro l' hl'
      obtain ⟨pl, hplM, hpl1, hpl2⟩ := hrow l' (List.mem_cons_of_mem _ hl')
      by_cases hc : pl.enrollmentId = e ∧ pl.lessonId = l
      · exact ⟨{ pl with completed := true, completed_at := some now },
          List.mem_map.mpr ⟨pl, hplM, by rw [if_pos hc]⟩, hpl1, hpl2⟩
      · exact ⟨pl, List.mem_map.mpr ⟨pl, hplM, by rw [if_neg hc]⟩, hpl1, hpl2⟩
    rw [ih _ hw' hwlt hen' hrow']
    show ({ db with progresses := (db.progresses.map (fun p =>
        if p.enrollmentId = e ∧ p.lessonId = l then
          { p with completed := true, completed_at := some now } else p)).map (fun p =>
        if p.enrollmentId = e ∧ p.lessonId ∈ t then
          { p with completed := true, completed_at := some now } else p) } : DB) = _
    refine congrArg (fun pr => { db with progresses := pr }) ?_
    rw [List.map_map]
    refine List.map_congr_left fun p _ => ?_
    show (if ((if p.enrollmentId = e ∧ p.lessonId = l then
        { p with completed := true, completed_at := some now } else p) : Progress).enrollmentId = e
          ∧ ((if p.enrollmentId = e ∧ p.lessonId = l then
        { p with completed := true, completed_at := some now } else p) : Progress).lessonId ∈ t then
        { (if p.enrollmentId = e ∧ p.lessonId = l then
            { p with completed := true, completed_at := some now } else p) with
          completed := true, completed_at := some now }
      else (if p.enrollmentId = e ∧ p.lessonId = l then
        { p with completed := true, completed_at := some now } else p))
      = (if p.enrollmentId = e ∧ p.lessonId ∈ l :: t then
          { p with completed := true, completed_at := some now } else p)
    by_cases hc1 : p.enrollmentId = e ∧ p.lessonId = l
    · rw [if_pos hc1]
      by_cases hc2 : p.lessonId ∈ t
      · rw [if_pos ⟨hc1.1, hc2⟩,
          if_pos ⟨hc1.1, List.mem_cons.mpr (Or.inl hc1.2)⟩]
      · rw [if_neg (fun h => hc2 h.2),
          if_pos ⟨hc1.1, List.mem_cons.mpr (Or.inl hc1.2)⟩]
    · rw [if_neg hc1]
      by_cases hc2 : p.enrollmentId = e ∧ p.lessonId ∈ t
      · rw [if_pos hc2, if_pos ⟨hc2.1, List.mem_cons.mpr (Or.inr hc2.2)⟩]
      · rw [if_neg hc2, if_neg (fun h => ?_)]
        rcases List.mem_cons.mp h.2 with hl | ht
        · exact hc1 ⟨h.1, hl⟩
        · exact hc2 ⟨h.1, ht⟩

/-! ### C3 — counterexample to the claim with the rounded percentage

The claim identifies `is_completed` with `progress_percentage == 100`, but
`progress_percentage` is rounded to two decimal places, so a course with
20001 lessons of which 20000 are completed reports exactly `100.0` while
`completed_at` is still null.  The construction is parametric in the lesson
count so that `List.range` stays symbolic everywhere except in the final
numeric computation. -/

/-- Count of a mapped list, computed through a pointwise image
predicate. -/
theorem countP_map_eq {α β : Type*} (l : List α) (f : α → β)
    (p : β → Bool) (q : α → Bool) (h : ∀ a ∈ l, p (f a) = q a) :
    (l.map f).countP p = l.countP q := by
  rw [List.countP_map]
  refine List.countP_congr (fun a ha => ?_)
  simp only [Function.comp_apply, h a ha]

/-- A published course with a single module holding `n` lessons. -/
def cexCourseDB (n : Nat) : DB :=
  { courses := [{ id := 1, slug := 1, instructorId := 2, status := .published }]
    modules := [{ id := 1, courseId := 1, order := 1 }]
    lessons := (List.range n).map (fun i =>
      { id := i, moduleId := 1, order := i, duration_minutes := 0 })
    enrollments := []
    progresses := [] }

/-- The state reached by student 7 enrolling in that course. -/
def cexEnrolledDB (n : Nat) : DB :=
  { cexCourseDB n with
      enrollments := [{ id := 1, studentId := 7, courseId := 1,
                        is_active := true, enrolled_at := 0, completed_at := none }]
      progresses := (cexCourseDB n).lessons.map (fun l =>
        { enrollmentId := 1, lessonId := l.id, completed := false,
          completed_at := none, last_accessed := 0 }) }

/-- Completing the first `m` lessons, in order. -/
def cexOps (m : Nat) : List LessonOp :=
  (List.range m).map (fun i => LessonOp.complete i 5)

/-- Enrolling in the `n`-lesson course yields exactly `cexEnrolledDB n`. -/
theorem cexEnroll_eq (n : Nat) :
    enroll_in_course (cexCourseDB n) true 7 .student 1 1 0
      = .ok (cexEnrolledDB n, 1) := by
  have hcl : courseLessons (cexCourseDB n) 1 = (cexCourseDB n).lessons :=
    List.filter_eq_self.mpr (fun l hl => by
      rw [show (cexCourseDB n).lessons = (List.range n).map (fun i =>
          ({ id := i, moduleId := 1, order := i, duration_minutes := 0 } : Lesson))
        from rfl] at hl
      obtain ⟨i, -, rfl⟩ := List.mem_map.mp hl
      rw [show (cexCourseDB n).modules
          = [{ id := 1, courseId := 1, order := 1 }] from rfl]
      simp)
  have hfind : (cexCourseDB n).courses.find?
        (fun c => c.slug = 1 ∧ c.status = CourseStatus.published)
      = some { id := 1, slug := 1, instructorId := 2, status := .published } := by
    rw [show (cexCourseDB n).courses
        = [{ id := 1, slug := 1, instructorId := 2, status := .published }] from rfl]
    rfl
  unfold enroll_in_course
  rw [if_neg (fun h => h rfl), if_neg (fun h => h rfl), hfind]
  dsimp only
  rw [if_neg (by rw [show (cexCourseDB n).enrollments = [] from rfl]; simp)]
  unfold create_progress_records
  rw [if_pos rfl]
  dsimp only
  rw [courseLessons_update_enrollments, hcl,
    show (cexCourseDB n).enrollments = [] from rfl,
    show (cexCourseDB n).progresses = [] from rfl,
    List.nil_append, List.nil_append]
  rfl

/-- Running the `m` completion requests on the enrolled `m+1`-lesson state
marks exactly the first `m` rows completed and touches nothing else. -/
theorem cexFinal_eq (m : Nat) :
    applyOps 7 1 (cexEnrolledDB (m + 1)) (cexOps m)
      = { cexEnrolledDB (m + 1) with
            progresses := (cexEnrolledDB (m + 1)).progresses.map (fun p =>
              if p.enrollmentId = 1 ∧ p.lessonId ∈ List.range m then
                { p with completed := true, completed_at := some 5 } else p) } := by
  have hrowmem : ∀ i, i < m + 1 →
      ({ enrollmentId := 1, lessonId := i, completed := false,
         completed_at := none, last_accessed := 0 } : Progress)
        ∈ (cexEnrolledDB (m + 1)).progresses := by
    intro i hi
    rw [show (cexEnrolledDB (m + 1)).progresses
        = (cexCourseDB (m + 1)).lessons.map (fun l =>
            ({ enrollmentId := 1, lessonId := l.id, completed := false,
               completed_at := none, last_accessed := 0 } : Progress)) from rfl,
      show (cexCourseDB (m + 1)).lessons = (List.range (m + 1)).map (fun i =>
          ({ id := i, moduleId := 1, order := i, duration_minutes := 0 } : Lesson))
        from rfl]
    exact List.mem_map.mpr
      ⟨{ id := i, moduleId := 1, order := i, duration_minutes := 0 },
        List.mem_map.mpr ⟨i, List.mem_range.mpr hi, rfl⟩, rfl⟩
  have hwit : ∃ p ∈ (cexEnrolledDB (m + 1)).progresses,
      p.enrollmentId = 1 ∧ p.lessonId = m ∧ p.completed = false :=
    ⟨_, hrowmem m (Nat.lt_succ_self m), rfl, rfl, rfl⟩
  have henr : ∃ en ∈ (cexEnrolledDB (m + 1)).enrollments,
      en.id = 1 ∧ en.studentId = 7 := by
    refine ⟨{ id := 1, studentId := 7, courseId := 1, is_active := true,
              enrolled_at := 0, completed_at := none }, ?_, rfl, rfl⟩
    rw [show (cexEnrolledDB (m + 1)).enrollments
        = [{ id := 1, studentId := 7, courseId := 1, is_active := true,
             enrolled_at := 0, completed_at := none }] from rfl]
    exact List.mem_singleton.mpr rfl
  have hrows : ∀ l ∈ List.range m, ∃ p ∈ (cexEnrolledDB (m + 1)).progresses,
      p.enrollmentId = 1 ∧ p.lessonId = l :=
    fun l hl => ⟨_, hrowmem l (Nat.lt_succ_of_lt (List.mem_range.mp hl)), rfl, rfl⟩
  exact applyOps_complete_batch 7 1 5 m (List.range m) (cexEnrolledDB (m + 1))
    hwit (by simp) henr hrows

/-- The final progress table, fully fused into one map over the lesson
indices. -/
theorem cexFinal_progresses (m : Nat) :
    (applyOps 7 1 (cexEnrolledDB (m + 1)) (cexOps m)).progresses
      = (List.range (m + 1)).map
          (((fun p : Progress =>
              if p.enrollmentId = 1 ∧ p.lessonId ∈ List.range m then
                { p with completed := true, completed_at := some 5 } else p) ∘
            (fun l : Lesson =>
              { enrollmentId := 1, lessonId := l.id, completed := false,
                completed_at := none, last_accessed := 0 })) ∘
           (fun i : Nat =>
              { id := i, moduleId := 1, order := i, duration_minutes := 0 })) := by
  rw [cexFinal_eq m]
  rw [show ({ cexEnrolledDB (m + 1) with
        progresses := (cexEnrolledDB (m + 1)).progresses.map (fun p =>
          if p.enrollmentId = 1 ∧ p.lessonId ∈ List.range m then
            { p with completed := true, completed_at := some 5 } else p) } : DB).progresses
      = (cexEnrolledDB (m + 1)).progresses.map (fun p =>
          if p.enrollmentId = 1 ∧ p.lessonId ∈ List.range m then
            { p with completed := true, completed_at := some 5 } else p) from rfl]
  rw [show (cexEnrolledDB (m + 1)).progresses
      = (cexCourseDB (m + 1)).lessons.map (fun l =>
          ({ enrollmentId := 1, lessonId := l.id, completed := false,
             completed_at := none, last_accessed := 0 } : Progress)) from rfl,
    show (cexCourseDB (m + 1)).lessons = (List.range (m + 1)).map (fun i =>
        ({ id := i, moduleId := 1, order := i, duration_minutes := 0 } : Lesson))
      from rfl]
  rw [List.map_map, List.map_map]

/-- Every progress row of the final state belongs to enrollment 1. -/
theorem cexFinal_progressOf (m : Nat) :
    progressOf (applyOps 7 1 (cexEnrolledDB (m + 1)) (cexOps m)) 1
      = (applyOps 7 1 (cexEnrolledDB (m + 1)) (cexOps m)).progresses := by
  unfold progressOf
  rw [cexFinal_progresses m]
  refine List.filter_eq_self.mpr (fun p hp => ?_)
  obtain ⟨i, -, rfl⟩ := List.mem_map.mp hp
  by_cases hi : i ∈ List.range m <;> simp [Function.comp, hi]

/-- Row counts of the final state: `m+1` rows, of which `m` are
completed. -/
theorem cexFinal_counts (m : Nat) :
    (progressOf (applyOps 7 1 (cexEnrolledDB (m + 1)) (cexOps m)) 1).length = m + 1
    ∧ ((progressOf (applyOps 7 1 (cexEnrolledDB (m + 1)) (cexOps m)) 1).filter
        (fun p => p.completed)).length = m := by
  rw [cexFinal_progressOf m, cexFinal_progresses m]
  constructor
  · rw [List.length_map, List.length_range]
  · rw [← List.countP_eq_length_filter]
    rw [countP_map_eq (List.range (m + 1)) _ _ (fun i => decide (i < m))
      (fun i _ => by
        by_cases hi : i < m <;>
          simp [Function.comp, List.mem_range, hi])]
    rw [List.range_succ, List.countP_append,
      List.countP_eq_length.mpr (fun i hi => by
        simpa using List.mem_range.mp hi),
      List.length_range]
    simp

/-- The final state's enrollment row still carries no completion
timestamp. -/
theorem cexFinal_enrollment (m : Nat) :
    ∃ en ∈ (applyOps 7 1 (cexEnrolledDB (m + 1)) (cexOps m)).enrollments,
      en.id = 1 ∧ is_completed en = false := by
  rw [cexFinal_eq m]
  refine ⟨{ id := 1, studentId := 7, courseId := 1, is_active := true,
            enrolled_at := 0, completed_at := none }, ?_, rfl, rfl⟩
  rw [show ({ cexEnrolledDB (m + 1) with
        progresses := (cexEnrolledDB (m + 1)).progresses.map (fun p =>
          if p.enrollmentId = 1 ∧ p.lessonId ∈ List.range m then
            { p with completed := true, completed_at := some 5 } else p) } : DB).enrollments
      = [{ id := 1, studentId := 7, courseId := 1, is_active := true,
           enrolled_at := 0, completed_at := none }] from rfl]
  exact List.mem_singleton.mpr rfl

/-- The scalar (rounded) percentage of the final state. -/
theorem cexFinal_percentage (m : Nat) :
    progress_percentage (applyOps 7 1 (cexEnrolledDB (m + 1)) (cexOps m)) 1
      = round2 (100 * (m : ℚ) / ((m : ℚ) + 1)) := by
  obtain ⟨ht, hc⟩ := cexFinal_counts m
  unfold progress_percentage
  dsimp only
  rw [ht, hc, if_neg (by omega)]
  have hcast : ((m + 1 : Nat) : ℚ) = (m : ℚ) + 1 := by push_cast; ring
  rw [hcast]

/-- C3 counterexample: in a 20001-lesson course with 20000 lessons
completed (a state reached by `enroll` followed by 20000 `complete_lesson`
requests), the rounded `progress_percentage` equals exactly 100 and at
least one progress row exists, yet `is_completed` is false — so
`is_completed` is not equivalent to `progress_percentage == 100` with at
least one row. -/
theorem completion_flag_sync_cex :
    enroll_in_course (cexCourseDB 20001) true 7 .student 1 1 0
      = .ok (cexEnrolledDB 20001, 1)
    ∧ (∃ en ∈ (applyOps 7 1 (cexEnrolledDB 20001) (cexOps 20000)).enrollments,
        en.id = 1 ∧ is_completed en = false)
    ∧ progressOf (applyOps 7 1 (cexEnrolledDB 20001) (cexOps 20000)) 1 ≠ []
    ∧ progress_percentage (applyOps 7 1 (cexEnrolledDB 20001) (cexOps 20000)) 1 = 100 := by
  have h20001 : (20001 : Nat) = 20000 + 1 := by norm_num
  refine ⟨cexEnroll_eq 20001, ?_, ?_, ?_⟩
  · rw [h20001]
    exact cexFinal_enrollment 20000
  · rw [h20001]
    intro habs
    have hlen := (cexFinal_counts 20000).1
    rw [habs] at hlen
    simp at hlen
  · rw [h20001, cexFinal_percentage 20000]
    rw [round2, round_eq]
    norm_num [Int.floor_eq_iff]

end LearnHub
